import Mathlib

/-!
Verification of the hybrid task scheduler (greedy + CP interval model).

This file gives a shallow embedding of `src/scheduler/greedy_model.py`,
`src/scheduler/interval_model.py` and the orchestration logic of
`src/scheduler/model.py`, and proves/refutes the behavioral claims about
them.  Dates are modelled as natural-number day indices with day `0` a
Monday, so `weekday d = d % 7`; the Python code only ever inspects
`date.weekday()`, date ordering and date arithmetic, all of which this
encoding preserves.  Hours are rationals (`ℚ`), matching the exact
decimal arithmetic the claims reason about.
-/

namespace TaskScheduler

/-- Python runtime values used as dict keys / set elements.  Needed because
`model.py` mixes `str` solution keys with `int` task ids; Python equality
between an `int` and a `str` is always `False`, which the derived
`DecidableEq` reproduces (distinct constructors are never equal). -/
inductive PyVal where
  | int (n : Int)
  | str (s : String)
deriving DecidableEq, Repr

/-- Python `int()` applied to an exact numeric value: truncation toward zero. -/
def pyInt (q : ℚ) : Int :=
  if 0 ≤ q then ⌊q⌋ else ⌈q⌉

/-- Rational addition in a kernel-computable form; `qAdd_eq` identifies it
with `+`. -/
def qAdd (a b : ℚ) : ℚ :=
  Rat.divInt (a.num * b.den + b.num * a.den) (a.den * b.den)

/-- Rational multiplication in a kernel-computable form; `qMul_eq`
identifies it with `*`. -/
def qMul (a b : ℚ) : ℚ :=
  Rat.divInt (a.num * b.num) (a.den * b.den)

/-- Rational division in a kernel-computable form; `qDiv_eq` identifies it
with `/`. -/
def qDiv (a b : ℚ) : ℚ :=
  Rat.divInt (a.num * b.den) (a.den * b.num)

theorem qAdd_eq (a b : ℚ) : qAdd a b = a + b := by
  unfold qAdd
  rw [← Rat.divInt_add_divInt _ _ (by exact_mod_cast a.den_nz) (by exact_mod_cast b.den_nz),
    Rat.num_divInt_den, Rat.num_divInt_den]

theorem qMul_eq (a b : ℚ) : qMul a b = a * b := by
  unfold qMul
  rw [← Rat.divInt_mul_divInt', Rat.num_divInt_den, Rat.num_divInt_den]

theorem qDiv_eq (a b : ℚ) : qDiv a b = a / b := by
  unfold qDiv
  rw [div_eq_mul_inv, Rat.inv_def', ← Rat.divInt_mul_divInt', Rat.num_divInt_den]

/-- Sum of a list of rationals (kernel-computable). -/
def qSum (l : List ℚ) : ℚ :=
  l.foldl qAdd 0

theorem qSum_eq (l : List ℚ) : qSum l = l.sum := by
  have key : ∀ (l : List ℚ) (a : ℚ), l.foldl qAdd a = a + l.sum := by
    intro l
    induction l with
    | nil => intro a; simp [List.sum_nil]
    | cons x xs ih =>
      intro a
      simp only [List.foldl_cons, List.sum_cons, ih, qAdd_eq]
      ring
  unfold qSum
  rw [key, zero_add]

/-- Stable insertion of an element into a sorted list: the new element
goes before any element it is `le`-equivalent to. -/
def insertLE (le : α → α → Bool) (x : α) : List α → List α
  | [] => [x]
  | y :: ys => if le x y then x :: y :: ys else y :: insertLE le x ys

/-- Stable insertion sort, the embedding of Python's (stable) `sorted` /
`sort_values`. -/
def isort (le : α → α → Bool) : List α → List α
  | [] => []
  | x :: xs => insertLE le x (isort le xs)

theorem mem_insertLE (le : α → α → Bool) (x a : α) (l : List α) :
    a ∈ insertLE le x l ↔ a = x ∨ a ∈ l := by
  induction l with
  | nil => simp [insertLE]
  | cons y ys ih =>
    rw [insertLE]
    split
    · simp
    · simp only [List.mem_cons, ih]
      tauto

theorem mem_isort (le : α → α → Bool) (a : α) (l : List α) :
    a ∈ isort le l ↔ a ∈ l := by
  induction l with
  | nil => simp [isort]
  | cons x xs ih =>
    rw [isort, mem_insertLE]
    simp [ih]

theorem length_insertLE (le : α → α → Bool) (x : α) (l : List α) :
    (insertLE le x l).length = l.length + 1 := by
  induction l with
  | nil => simp [insertLE]
  | cons y ys ih =>
    rw [insertLE]
    split
    · simp
    · simp [ih]

theorem length_isort (le : α → α → Bool) (l : List α) :
    (isort le l).length = l.length := by
  induction l with
  | nil => simp [isort]
  | cons x xs ih => rw [isort, length_insertLE, ih, List.length_cons]

/-- One row of the tasks dataframe.  The greedy model and
`should_use_greedy` read `remaining_hours`; the interval model reads
`planned_hours`; both columns are carried so the two code paths can be
compared on the same input. -/
structure Task where
  id : Int
  user_id : Int
  remaining_hours : ℚ
  priority_score : ℚ
  planned_hours : ℚ
  hierarchy_level : Int
  is_leaf_task : Bool
deriving DecidableEq, Repr

/-- One row of the calendar-slots dataframe. -/
structure CalendarRow where
  task_id : Int
  dayofweek : Nat
  hour_from : Int
  hour_to : Int
deriving DecidableEq, Repr

/-- One row of the leaves dataframe (`date_from`/`date_to` inclusive). -/
structure Leave where
  task_id : Int
  date_from : Nat
  date_to : Nat
deriving DecidableEq, Repr

/-- `greedy_model.ScheduledSlot`. -/
structure ScheduledSlot where
  task_id : Int
  user_id : Int
  date : Nat
  hour : Int
deriving DecidableEq, Repr

/-- Fuel-driven worker for `dedupFirst` (the fuel bounds the list length,
keeping the recursion structural and kernel-computable). -/
def dedupFirstGo [DecidableEq α] : Nat → List α → List α
  | _, [] => []
  | 0, _ :: _ => []
  | n + 1, x :: xs => x :: dedupFirstGo n (xs.filter (· ≠ x))

/-- Keep the first occurrence of each element, dropping later duplicates:
the order `pandas.Series.unique` returns values in. -/
def dedupFirst [DecidableEq α] (l : List α) : List α :=
  dedupFirstGo l.length l

/-- `should_use_greedy` from `greedy_model.py`: route to the greedy
algorithm when the instance is large (thresholds hard-coded in the
source as 50 tasks / 1000 hours / 10 users / 100 average hours). -/
def should_use_greedy (tasks : List Task) : Bool :=
  let num_tasks : Nat := tasks.length
  let total_hours : ℚ := qSum (tasks.map (·.remaining_hours))
  let num_users : Nat := (dedupFirst (tasks.map (·.user_id))).length
  let avg_hours : ℚ := if num_tasks > 0 then qDiv total_hours num_tasks else 0
  decide (num_tasks > 50) || decide (total_hours > 1000) ||
    decide (num_users > 10) || decide (avg_hours > 100)

theorem mem_dedupFirstGo [DecidableEq α] (a : α) :
    ∀ (n : Nat) (l : List α), l.length ≤ n → (a ∈ dedupFirstGo n l ↔ a ∈ l) := by
  intro n
  induction n with
  | zero =>
    intro l hl
    match l with
    | [] => simp [dedupFirstGo]
    | x :: xs => simp at hl
  | succ n ih =>
    intro l hl
    match l with
    | [] => simp [dedupFirstGo]
    | x :: xs =>
      rw [dedupFirstGo]
      have hlen : (xs.filter (· ≠ x)).length ≤ n := by
        have := List.length_filter_le (fun y => decide (y ≠ x)) xs
        simp only [List.length_cons, Nat.succ_le_succ_iff] at hl
        omega
      simp only [List.mem_cons, ih _ hlen, List.mem_filter]
      by_cases hax : a = x
      · simp [hax]
      · simp [hax]

/-- Elements of `dedupFirst l` are exactly the elements of `l`. -/
theorem mem_dedupFirst [DecidableEq α] (l : List α) (a : α) :
    a ∈ dedupFirst l ↔ a ∈ l :=
  mem_dedupFirstGo a l.length l le_rfl

theorem nodup_dedupFirstGo [DecidableEq α] :
    ∀ (n : Nat) (l : List α), l.length ≤ n → (dedupFirstGo n l).Nodup := by
  intro n
  induction n with
  | zero =>
    intro l hl
    match l with
    | [] => simp [dedupFirstGo]
    | x :: xs => simp at hl
  | succ n ih =>
    intro l hl
    match l with
    | [] => simp [dedupFirstGo]
    | x :: xs =>
      rw [dedupFirstGo]
      have hlen : (xs.filter (· ≠ x)).length ≤ n := by
        have := List.length_filter_le (fun y => decide (y ≠ x)) xs
        simp only [List.length_cons, Nat.succ_le_succ_iff] at hl
        omega
      refine List.nodup_cons.mpr ⟨?_, ih _ hlen⟩
      intro hmem
      have := (mem_dedupFirstGo x _ _ hlen).mp hmem
      simp [List.mem_filter] at this

/-- `dedupFirst` produces a list with no duplicates. -/
theorem nodup_dedupFirst [DecidableEq α] (l : List α) :
    (dedupFirst l).Nodup :=
  nodup_dedupFirstGo l.length l le_rfl

/-- The number of distinct users computed by the source
(`tasks_df['user_id'].nunique()`) is the cardinality of the set of user
ids in the task list. -/
theorem dedupFirst_length_eq_card (tasks : List Task) :
    (dedupFirst (tasks.map (·.user_id))).length =
      (tasks.map (·.user_id)).toFinset.card := by
  rw [← List.toFinset_card_of_nodup (nodup_dedupFirst _)]
  congr 1
  ext a
  simp [mem_dedupFirst]

/-! ## Greedy model (`greedy_model.py`) -/

/-- `AvailableBlock` from `greedy_model.py`: a contiguous hour range on a
concrete date for one user (`start_datetime`/`end_datetime` split into the
date and the two hour bounds). -/
structure AvailableBlock where
  user_id : Int
  date : Nat
  hour_from : Int
  hour_to : Int
  duration : Int
  weekday : Nat
deriving DecidableEq, Repr

/-- Occupied (date, hour) pairs of one user: the per-user ledger
`occupied_slots[user_id]` flattened (the code stores a `set` of hours per
date; only membership and insertion are used, which this preserves). -/
abbrev Occ := List (Nat × Int)

/-- Python `range(a, b)` over hour bounds. -/
def intRange (a b : Int) : List Int :=
  (List.range (b - a).toNat).map (fun i => a + Int.ofNat i)

/-- The six-key comparison of `_sort_tasks_optimally`: `priority_score`
descending, `hierarchy_level` ascending, `is_leaf_task` descending,
`remaining_hours` descending, `user_id` ascending, `id` ascending. -/
def taskSortLE (a b : Task) : Bool :=
  if a.priority_score ≠ b.priority_score then decide (a.priority_score > b.priority_score)
  else if a.hierarchy_level ≠ b.hierarchy_level then decide (a.hierarchy_level < b.hierarchy_level)
  else if a.is_leaf_task ≠ b.is_leaf_task then a.is_leaf_task
  else if a.remaining_hours ≠ b.remaining_hours then decide (a.remaining_hours > b.remaining_hours)
  else if a.user_id ≠ b.user_id then decide (a.user_id < b.user_id)
  else decide (a.id ≤ b.id)

/-- `_sort_tasks_optimally`. -/
def sortTasks (tasks : List Task) : List Task :=
  isort taskSortLE tasks

/-- Ids of all tasks belonging to a user
(`tasks_df[tasks_df['user_id'] == user_id]['id']`). -/
def userTaskIds (tasks : List Task) (uid : Int) : List Int :=
  (tasks.filter (fun t => t.user_id = uid)).map (·.id)

/-- Ascending order on calendar triples, the key order of
`groupby(['dayofweek', 'hour_from', 'hour_to'])`. -/
def tripleLE (a b : Nat × Int × Int) : Bool :=
  decide (a.1 < b.1) || (decide (a.1 = b.1) &&
    (decide (a.2.1 < b.2.1) || (decide (a.2.1 = b.2.1) && decide (a.2.2 ≤ b.2.2))))

/-- The deduplicated calendar triples of a user: all calendar rows of the
user's tasks, grouped (hence deduplicated and key-sorted) on
`(dayofweek, hour_from, hour_to)`. -/
def userCalendarTriples (tasks : List Task) (cal : List CalendarRow) (uid : Int) :
    List (Nat × Int × Int) :=
  let ids := userTaskIds tasks uid
  let rows := cal.filter (fun r => r.task_id ∈ ids)
  isort tripleLE (dedupFirst (rows.map (fun r => (r.dayofweek, r.hour_from, r.hour_to))))

/-- Block generation of `_generate_available_blocks` for one user: for each
day of the horizon (first day `d0`) and each calendar triple matching the
day's weekday, emit a block when its duration is positive. -/
def generateBlocksForUser (triples : List (Nat × Int × Int)) (d0 horizon : Nat)
    (uid : Int) : List AvailableBlock :=
  (List.range horizon).flatMap (fun i =>
    let day := d0 + i
    (triples.filter (fun tr => tr.1 = day % 7)).filterMap (fun tr =>
      let dur := tr.2.2 - tr.2.1
      if dur > 0 then
        some ⟨uid, day, tr.2.1, tr.2.2, dur, day % 7⟩
      else none))

/-- `_apply_leaves_to_blocks` for one user: drop every block whose date
lies inside a leave of any of the user's tasks. -/
def applyLeavesToBlocks (tasks : List Task) (leaves : List Leave) (uid : Int)
    (blocks : List AvailableBlock) : List AvailableBlock :=
  let ids := userTaskIds tasks uid
  let userLeaves := leaves.filter (fun l => l.task_id ∈ ids)
  blocks.filter (fun b =>
    !userLeaves.any (fun l => decide (l.date_from ≤ b.date ∧ b.date ≤ l.date_to)))

/-- The free (unoccupied) hours of one block, in ascending hour order, as
provisional `ScheduledSlot`s for the given task. -/
def freeSlotsOfBlock (occ : Occ) (tid uid : Int) (b : AvailableBlock) :
    List ScheduledSlot :=
  (intRange b.hour_from b.hour_to).filterMap (fun h =>
    if (b.date, h) ∈ occ then none else some ⟨tid, uid, b.date, h⟩)

/-- The run-scanning loop shared by `_find_single_day_slots` and
`_find_best_day_slots`: walk the hours, extending the current run on a
free hour, and on an occupied hour keep the longer of the current run and
the best run so far (strict comparison, so the earliest maximal run
wins). -/
def bestRunGo (occ : Occ) (tid uid : Int) (date : Nat) :
    List Int → List ScheduledSlot → List ScheduledSlot → List ScheduledSlot
  | [], cur, best => if cur.length > best.length then cur else best
  | h :: rest, cur, best =>
    if (date, h) ∈ occ then
      bestRunGo occ tid uid date rest []
        (if cur.length > best.length then cur else best)
    else
      bestRunGo occ tid uid date rest (cur ++ [⟨tid, uid, date, h⟩]) best

/-- The longest run of consecutive free hours inside one block. -/
def bestRunInBlock (occ : Occ) (tid uid : Int) (b : AvailableBlock) :
    List ScheduledSlot :=
  bestRunGo occ tid uid b.date (intRange b.hour_from b.hour_to) [] []

/-- Order on blocks by `start_datetime`, i.e. by (date, starting hour). -/
def blockLE (a b : AvailableBlock) : Bool :=
  decide (a.date < b.date) || (decide (a.date = b.date) && decide (a.hour_from ≤ b.hour_from))

/-- Order on blocks by starting hour only
(`key=lambda b: b.start_datetime.hour`). -/
def blockHourLE (a b : AvailableBlock) : Bool :=
  decide (a.hour_from ≤ b.hour_from)

/-- The inner loop of `_find_single_day_slots` over blocks sorted by
`start_datetime`: skip blocks that cannot fit the task, otherwise return
the first `need` hours of the first block whose best free run is long
enough. -/
def findSingleDayGo (occ : Occ) (need : Nat) (tid uid : Int) :
    List AvailableBlock → List ScheduledSlot
  | [] => []
  | b :: rest =>
    if b.duration ≥ (need : Int) then
      let best := bestRunInBlock occ tid uid b
      if best.length ≥ need then best.take need else findSingleDayGo occ need tid uid rest
    else findSingleDayGo occ need tid uid rest

/-- `_find_single_day_slots`. -/
def findSingleDay (blocks : List AvailableBlock) (occ : Occ) (need : Nat)
    (tid uid : Int) : List ScheduledSlot :=
  findSingleDayGo occ need tid uid (isort blockLE blocks)

/-- The distinct dates of a block list in first-appearance order
(the insertion order of `blocks_by_date`). -/
def datesOf (blocks : List AvailableBlock) : List Nat :=
  dedupFirst (blocks.map (·.date))

/-- The distinct dates sorted ascending (`sorted(blocks_by_date.keys())`;
the ISO date strings sort chronologically). -/
def sortedDatesOf (blocks : List AvailableBlock) : List Nat :=
  isort (fun a b => decide (a ≤ b)) (datesOf blocks)

/-- The blocks of one date, in original insertion order. -/
def dayBlocks (blocks : List AvailableBlock) (d : Nat) : List AvailableBlock :=
  blocks.filter (·.date = d)

/-- `_find_multi_day_slots`: walk the dates chronologically, inside a date
the blocks by starting hour, and collect free hours until `need` are
found (collect-then-take equals the source's early exit). -/
def findMultiDay (blocks : List AvailableBlock) (occ : Occ) (need : Nat)
    (tid uid : Int) : List ScheduledSlot :=
  let all := (sortedDatesOf blocks).flatMap (fun d =>
    (isort blockHourLE (dayBlocks blocks d)).flatMap (freeSlotsOfBlock occ tid uid))
  if all.length ≥ need then all.take need else []

/-- `_find_best_day_slots`: best free run across the day's blocks, with
the best run threaded over the blocks and the current run reset at each
block boundary. -/
def bestDaySlots (blocks : List AvailableBlock) (occ : Occ) (tid uid : Int)
    (d : Nat) : List ScheduledSlot :=
  (isort blockHourLE (dayBlocks blocks d)).foldl
    (fun best b => bestRunGo occ tid uid b.date (intRange b.hour_from b.hour_to) [] best) []

/-- Order on provisional slots by hour (`key=lambda s: s.hour`). -/
def slotHourLE (a b : ScheduledSlot) : Bool :=
  decide (a.hour ≤ b.hour)

/-- The gap check of `_find_flexible_day_slots`: keep the longest initial
segment of the hour-sorted free slots in which consecutive hours differ by
at most `2 + 1`. -/
def gapGo (prev : ScheduledSlot) : List ScheduledSlot → List ScheduledSlot
  | [] => []
  | s :: rest =>
    if s.hour - prev.hour - 1 ≤ 2 then s :: gapGo s rest else []

/-- `_find_flexible_day_slots` with the hard-coded `max_gap_hours = 2`. -/
def flexDaySlots (blocks : List AvailableBlock) (occ : Occ) (tid uid : Int)
    (d : Nat) : List ScheduledSlot :=
  let free := isort slotHourLE ((dayBlocks blocks d).flatMap (freeSlotsOfBlock occ tid uid))
  match free with
  | [] => []
  | s :: rest => s :: gapGo s rest

/-- First phase of `_find_flexible_slots_improved`: the first date whose
best day run covers the need wins. -/
def findFlexGo1 (blocks : List AvailableBlock) (occ : Occ) (need : Nat)
    (tid uid : Int) : List Nat → Option (List ScheduledSlot)
  | [] => none
  | d :: rest =>
    let s := bestDaySlots blocks occ tid uid d
    if s.length ≥ need then some (s.take need)
    else findFlexGo1 blocks occ need tid uid rest

/-- Second phase of `_find_flexible_slots_improved`: stitch gap-limited
day slots across dates until the need is met. -/
def findFlexGo2 (blocks : List AvailableBlock) (occ : Occ) (need : Nat)
    (tid uid : Int) (selected : List ScheduledSlot) :
    List Nat → List ScheduledSlot
  | [] => selected
  | d :: rest =>
    if selected.length ≥ need then selected
    else
      let day := flexDaySlots blocks occ tid uid d
      findFlexGo2 blocks occ need tid uid
        (selected ++ day.take (need - selected.length)) rest

/-- `_find_flexible_slots_improved`. -/
def findFlexible (blocks : List AvailableBlock) (occ : Occ) (need : Nat)
    (tid uid : Int) : List ScheduledSlot :=
  let ds := sortedDatesOf blocks
  match findFlexGo1 blocks occ need tid uid ds with
  | some s => s
  | none =>
    let sel := findFlexGo2 blocks occ need tid uid [] ds
    if sel.length ≥ need then sel.take need else []

/-- ISO-week key of a date.  With day `0` a Monday, the fibers of
`d / 7` are exactly the Monday-aligned ISO weeks, and the string keys
`"YYYY-WNN"` the source sorts compare in the same order. -/
def weekKey (d : Nat) : Nat := d / 7

/-- Order on provisional slots by (date, hour), the sort key of
`_find_distributed_slots`. -/
def slotDateHourLE (a b : ScheduledSlot) : Bool :=
  decide (a.date < b.date) || (decide (a.date = b.date) && decide (a.hour ≤ b.hour))

/-- Week loop of `_find_distributed_slots`: take at most 8 free hours per
ISO week, weeks ascending, until the need is met. -/
def findDistributedGo (sorted : List AvailableBlock) (occ : Occ) (need : Nat)
    (tid uid : Int) (selected : List ScheduledSlot) : List Nat → List ScheduledSlot
  | [] => selected
  | w :: rest =>
    if selected.length ≥ need then selected
    else
      let wSlots := isort slotDateHourLE ((sorted.filter (fun b => weekKey b.date = w)).flatMap
        (freeSlotsOfBlock occ tid uid))
      findDistributedGo sorted occ need tid uid
        (selected ++ wSlots.take (min 8 (need - selected.length))) rest

/-- `_find_distributed_slots`. -/
def findDistributed (blocks : List AvailableBlock) (occ : Occ) (need : Nat)
    (tid uid : Int) : List ScheduledSlot :=
  let sorted := isort blockLE blocks
  let weeks := isort (fun a b => decide (a ≤ b))
    (dedupFirst (sorted.map (fun b => weekKey b.date)))
  let sel := findDistributedGo sorted occ need tid uid [] weeks
  if sel.length ≥ need then sel.take need else []

/-- `_find_consecutive_slots`: the four-strategy cascade.  `hours_needed`
is rounded up to whole hours; the flexible strategy only fires for more
than 8 hours and the distributed one for more than 16. -/
def findConsecutiveSlots (blocks : List AvailableBlock) (occ : Occ)
    (hours_needed : ℚ) (tid uid : Int) : List ScheduledSlot :=
  let need : Nat := (Int.ceil hours_needed).toNat
  let s1 := findSingleDay blocks occ need tid uid
  if s1 ≠ [] then s1
  else
    let s2 := findMultiDay blocks occ need tid uid
    if s2 ≠ [] then s2
    else
      let s3 := if need > 8 then findFlexible blocks occ need tid uid else []
      if s3 ≠ [] then s3
      else if need > 16 then findDistributed blocks occ need tid uid else []

/-- Python dictionary read with a default (`dict.get(key, default)`). -/
def dictGet (m : List (Int × α)) (k : Int) (dflt : α) : α :=
  match m with
  | [] => dflt
  | (k2, v) :: rest => if k = k2 then v else dictGet rest k dflt

/-- A dictionary read returns the default or a stored value. -/
theorem dictGet_cases (m : List (Int × α)) (k : Int) (dflt : α) :
    dictGet m k dflt = dflt ∨ (k, dictGet m k dflt) ∈ m := by
  induction m with
  | nil => exact Or.inl rfl
  | cons p rest ih =>
    match p with
    | (k2, v) =>
      rw [dictGet]
      by_cases hk : k = k2
      · subst hk
        simp
      · rw [if_neg hk]
        rcases ih with h | h
        · exact Or.inl h
        · exact Or.inr (List.mem_cons_of_mem _ h)

/-- `_mark_slots_occupied`: add each slot's (date, hour) to the user's
ledger (the Python `set.add` is idempotent; membership checks are all
that matter). -/
def markOccupied (occ : Occ) (slots : List ScheduledSlot) : Occ :=
  slots.foldl (fun o s => if (s.date, s.hour) ∈ o then o else o ++ [(s.date, s.hour)]) occ

/-- Update one user's entry of the per-user ledger dictionary. -/
def updateOcc (m : List (Int × Occ)) (u : Int) (o : Occ) : List (Int × Occ) :=
  if m.any (fun p => p.1 = u) then m.map (fun p => if p.1 = u then (u, o) else p)
  else m ++ [(u, o)]

/-- `_greedy_algorithm`: walk the sorted tasks, find slots via the
strategy cascade, and commit successful tasks to the ledger. -/
def greedyGo (blocksMap : List (Int × List AvailableBlock)) :
    List Task → List (Int × Occ) → List (Int × List ScheduledSlot) →
    List (Int × List ScheduledSlot)
  | [], _, sched => sched
  | t :: rest, occMap, sched =>
    let blocks := dictGet blocksMap t.user_id []
    let occ := dictGet occMap t.user_id []
    let slots := findConsecutiveSlots blocks occ t.remaining_hours t.id t.user_id
    if slots = [] then greedyGo blocksMap rest occMap sched
    else greedyGo blocksMap rest (updateOcc occMap t.user_id (markOccupied occ slots))
      (sched ++ [(t.id, slots)])

/-- `_generate_available_blocks` + `_apply_leaves_to_blocks`: the per-user
available blocks for a horizon starting at `d0`. -/
def buildBlocksMap (tasks : List Task) (cal : List CalendarRow) (leaves : List Leave)
    (d0 horizon : Nat) : List (Int × List AvailableBlock) :=
  (dedupFirst (tasks.map (·.user_id))).map (fun u =>
    (u, applyLeavesToBlocks tasks leaves u
      (generateBlocksForUser (userCalendarTriples tasks cal u) d0 horizon u)))

/-- One full greedy pass at a given horizon (blocks and ledger rebuilt
from scratch, ledger initially empty). -/
def greedyPass (tasks : List Task) (cal : List CalendarRow) (leaves : List Leave)
    (d0 horizon : Nat) : List (Int × List ScheduledSlot) :=
  greedyGo (buildBlocksMap tasks cal leaves d0 horizon) tasks [] []

/-- `_calculate_optimal_horizon`: per user, `ceil(total_hours / 40)` weeks,
times 7 days, times 1.5 truncated to int; the horizon is the maximum of
the initial horizon and every user's buffered need, capped at
`max_horizon_days`. -/
def optimalHorizon (tasks : List Task) (initialHorizon maxDays : Nat) : Nat :=
  let users := dedupFirst (tasks.map (·.user_id))
  let needed := users.foldl (fun acc u =>
    let total : ℚ := qSum (((tasks.filter (fun t => t.user_id = u)).map (·.remaining_hours)))
    let days : Int := (Int.ceil (qDiv total 40)) * 7
    max acc (pyInt (qMul (days : ℚ) (mkRat 3 2)))) (initialHorizon : Int)
  (min needed (maxDays : Int)).toNat

/-- Result of the greedy retry loop. -/
structure LoopResult where
  schedule : List (Int × List ScheduledSlot)
  horizon : Nat
  extensions : Nat
deriving Repr, DecidableEq

/-- `success_rate` as computed inside the solve loop, with its zero
guard (exact rational division). -/
def loopSuccessRate (scheduled total : Nat) : ℚ :=
  if total > 0 then qDiv (scheduled : ℚ) (total : ℚ) else 0

/-- The `while extension_attempts < max_attempts` loop of
`GreedySchedulingModel.solve`, with `fuel = max_attempts - attempts`
keeping the recursion structural: run a pass, stop at a success rate of
at least 0.8 or at the horizon cap, otherwise double the horizon (capped)
and retry; when the attempt budget is exhausted the schedule of the last
executed pass is kept. -/
def solveLoopGo (tasks : List Task) (cal : List CalendarRow) (leaves : List Leave)
    (d0 maxDays : Nat) :
    Nat → Nat → Nat → List (Int × List ScheduledSlot) → LoopResult
  | 0, attempts, horizon, prev => ⟨prev, horizon, attempts⟩
  | fuel + 1, attempts, horizon, _prev =>
    let schedule := greedyPass tasks cal leaves d0 horizon
    if loopSuccessRate schedule.length tasks.length ≥ mkRat 4 5 then
      ⟨schedule, horizon, attempts⟩
    else if horizon ≥ maxDays then ⟨schedule, horizon, attempts⟩
    else
      solveLoopGo tasks cal leaves d0 maxDays fuel (attempts + 1)
        (min (horizon * 2) maxDays) schedule

/-- The solve loop entered with `extension_attempts = 0` and
`max_attempts = 5`. -/
def solveLoop (tasks : List Task) (cal : List CalendarRow) (leaves : List Leave)
    (d0 maxDays : Nat) (horizon : Nat) : LoopResult :=
  solveLoopGo tasks cal leaves d0 maxDays 5 0 horizon []

/-- Everything `GreedySchedulingModel` exposes after `solve`. -/
structure GreedyOutcome where
  schedule : List (Int × List ScheduledSlot)
  horizon : Nat
  extensions : Nat
  overlaps : Nat
  success : Bool
deriving Repr, DecidableEq

/-- `_validate_no_overlaps`: count, over all slots of the solution in
commitment order, the occurrences whose (user, date, hour) key was
already seen. -/
def countOverlaps (sched : List (Int × List ScheduledSlot)) : Nat :=
  ((sched.flatMap (·.2)).foldl
    (fun (acc : Nat × List (Int × Nat × Int)) s =>
      let key := (s.user_id, s.date, s.hour)
      if key ∈ acc.2 then (acc.1 + 1, acc.2) else (acc.1, acc.2 ++ [key]))
    (0, [])).1

/-- `GreedySchedulingModel.solve` including the statistics epilogue.  The
final `stats['success_rate'] = len(schedule) / len(self.tasks_df)` has no
zero guard: on an empty task set it raises `ZeroDivisionError`, modelled
as the `.error` branch. -/
def greedySolveE (tasks0 : List Task) (cal : List CalendarRow) (leaves : List Leave)
    (utcToday : Nat) (initialHorizon maxDays : Nat) : Except String GreedyOutcome :=
  let tasks := sortTasks tasks0
  let horizon0 := optimalHorizon tasks initialHorizon maxDays
  let r := solveLoop tasks cal leaves (utcToday + 1) maxDays horizon0
  let overlaps := countOverlaps r.schedule
  if tasks.length = 0 then Except.error "ZeroDivisionError"
  else Except.ok ⟨r.schedule, r.horizon, r.extensions, overlaps, r.schedule.length > 0⟩

/-- The boolean `solve` returns: the `except` clause turns any raised
exception into `False`. -/
def greedySolve (tasks0 : List Task) (cal : List CalendarRow) (leaves : List Leave)
    (utcToday : Nat) (initialHorizon maxDays : Nat) : Bool :=
  match greedySolveE tasks0 cal leaves utcToday initialHorizon maxDays with
  | Except.ok o => o.success
  | Except.error _ => false

/-! ## Orchestrator (`model.py`) -/

/-- The string keys of the greedy solution dictionary
(`_convert_to_solution_format` stores `str(int(task_id))`). -/
def solutionKeys (sched : List (Int × List ScheduledSlot)) : List String :=
  sched.map (fun p => toString p.1)

/-- `unscheduled_tasks = all_tasks - scheduled_tasks` from
`SchedulingModel.solve`: a set difference between the integer task ids
and the string solution keys, under Python equality (an `int` never
equals a `str`). -/
def unscheduledTasks (taskIds : List Int) (keys : List String) : List PyVal :=
  let allT : List PyVal := dedupFirst (taskIds.map PyVal.int)
  let schedT : List PyVal := dedupFirst (keys.map PyVal.str)
  allT.filter (fun v => v ∉ schedT)

/-- The guard `if unscheduled_tasks and len(unscheduled_tasks) <= 20`
that decides whether the residual OrTools pass runs. -/
def residualTriggered (unscheduled : List PyVal) : Bool :=
  !unscheduled.isEmpty && decide (unscheduled.length ≤ 20)

/-! ## CP interval model (`interval_model.py`) -/

/-- `ContiguousSlot`: a per-task contiguous hour range on one date. -/
structure ContiguousSlot where
  task_id : Int
  user_id : Int
  date : Nat
  hour_from : Int
  hour_to : Int
  duration : Int
  weekday : Nat
deriving DecidableEq, Repr, Inhabited

/-- The planning days of `IntervalSchedulingModel._prepare_data`: the
horizon starts at `datetime.now().date()` — the **current local date**,
not tomorrow and not UTC. -/
def intervalDays (localToday horizon : Nat) : List Nat :=
  (List.range horizon).map (localToday + ·)

/-- The interval model sorts its task dataframe by `priority_score`
ascending at construction time. -/
def prioLE (a b : Task) : Bool :=
  decide (a.priority_score ≤ b.priority_score)

/-- `sort_values('priority_score', ascending=True)`. -/
def sortTasksByPriority (tasks : List Task) : List Task :=
  isort prioLE tasks

/-- Ascending order on `(task_id, dayofweek)` group keys. -/
def groupKeyLE (a b : Int × Nat) : Bool :=
  decide (a.1 < b.1) || (decide (a.1 = b.1) && decide (a.2 ≤ b.2))

/-- The `(task_id, dayofweek)` group keys of the calendar dataframe in
`groupby` order (sorted, deduplicated). -/
def groupKeys (cal : List CalendarRow) : List (Int × Nat) :=
  isort groupKeyLE (dedupFirst (cal.map (fun r => (r.task_id, r.dayofweek))))

/-- The rows of one `(task_id, dayofweek)` group, sorted by `hour_from`
(stable, preserving original row order on ties). -/
def groupRows (cal : List CalendarRow) (k : Int × Nat) : List CalendarRow :=
  isort (fun a b => decide (a.hour_from ≤ b.hour_from))
    (cal.filter (fun r => r.task_id = k.1 ∧ r.dayofweek = k.2))

/-- The adjacent-interval merge of `_calculate_contiguous_slots`: a row
starting exactly at the current end extends the interval, anything else
closes it (overlapping-but-not-adjacent rows start a new interval). -/
def mergeRows : List CalendarRow → Option (Int × Int) → List (Int × Int)
  | [], none => []
  | [], some cur => [cur]
  | r :: rest, none => mergeRows rest (some (r.hour_from, r.hour_to))
  | r :: rest, some (s, e) =>
    if r.hour_from = e then mergeRows rest (some (s, r.hour_to))
    else (s, e) :: mergeRows rest (some (r.hour_from, r.hour_to))

/-- `_add_slots_for_weekday`: one slot per horizon day whose weekday
matches the merged weekly interval. -/
def slotsForWeekday (tid uid : Int) (wd : Nat) (hf ht : Int) (days : List Nat) :
    List ContiguousSlot :=
  (days.filter (fun d => d % 7 = wd)).map (fun d => ⟨tid, uid, d, hf, ht, ht - hf, wd⟩)

/-- `_calculate_contiguous_slots`: group calendar rows by
`(task_id, dayofweek)`, merge adjacent intervals, and instantiate them on
every matching horizon day.  Groups whose task id is not in the task
dataframe are skipped. -/
def calcContiguousSlots (tasks : List Task) (cal : List CalendarRow)
    (days : List Nat) : List ContiguousSlot :=
  (groupKeys cal).flatMap (fun k =>
    match tasks.filter (fun t => t.id = k.1) with
    | [] => []
    | t :: _ =>
      (mergeRows (groupRows cal k) none).flatMap (fun iv =>
        slotsForWeekday k.1 t.user_id k.2 iv.1 iv.2 days))

/-- `_apply_leaves_to_slots`: a slot is dropped when a leave of the
**slot's own task** covers its date (leaves of the same user's other
tasks are not consulted). -/
def applyLeavesToSlots (leaves : List Leave) (slots : List ContiguousSlot) :
    List ContiguousSlot :=
  slots.filter (fun s =>
    !(leaves.filter (fun l => l.task_id = s.task_id)).any
      (fun l => decide (l.date_from ≤ s.date ∧ s.date ≤ l.date_to)))

/-- The slot list the model is built over at a given horizon. -/
def intervalSlots (tasks : List Task) (cal : List CalendarRow) (leaves : List Leave)
    (localToday horizon : Nat) : List ContiguousSlot :=
  applyLeavesToSlots leaves
    (calcContiguousSlots tasks cal (intervalDays localToday horizon))

/-- The linking constraints of `_create_interval_variables`: each
duration variable lies in `[0, slot.duration]` and is forced to `0` when
the slot is not assigned (`duration <= max_duration * assign`). -/
def linkOK (slots : List ContiguousSlot) (assign : List Bool) (dur : List Int) : Bool :=
  (List.range slots.length).all (fun i =>
    let s := slots.getD i default
    let d := dur.getD i 0
    decide (0 ≤ d) && decide (d ≤ s.duration) &&
      decide (d ≤ s.duration * (if assign.getD i false then 1 else 0)))

/-- The per-task duration constraints of `_create_interval_constraints`:
one pair `(task_id, int(planned_hours))` for every task that owns at
least one slot; tasks without slots get **no** constraint. -/
def coverageConstraints (tasks : List Task) (slots : List ContiguousSlot) :
    List (Int × Int) :=
  (sortTasksByPriority tasks).filterMap (fun t =>
    if slots.any (fun s => s.task_id = t.id) then some (t.id, pyInt t.planned_hours)
    else none)

/-- Sum of the duration variables of one task's slots. -/
def taskDurSum (slots : List ContiguousSlot) (dur : List Int) (tid : Int) : Int :=
  ((List.range slots.length).filter (fun i => (slots.getD i default).task_id = tid)).foldl
    (fun acc i => acc + dur.getD i 0) 0

/-- All posted duration constraints hold. -/
def coverageOK (tasks : List Task) (slots : List ContiguousSlot) (dur : List Int) : Bool :=
  (coverageConstraints tasks slots).all (fun c => decide (taskDurSum slots dur c.1 = c.2))

/-- Two slots fall in the same non-overlap group of
`_create_non_overlap_constraints`: same user and the **identical**
`(start_datetime, end_datetime)` pair. -/
def sameKeySlot (a b : ContiguousSlot) : Bool :=
  decide (a.user_id = b.user_id) && decide (a.date = b.date) &&
    decide (a.hour_from = b.hour_from) && decide (a.hour_to = b.hour_to)

/-- The non-overlap constraints: at most one assigned slot per
`(user, start, end)` group, stated pairwise. -/
def nonOverlapOK (slots : List ContiguousSlot) (assign : List Bool) : Bool :=
  (List.range slots.length).all (fun i =>
    (List.range slots.length).all (fun j =>
      decide (i = j) || !sameKeySlot (slots.getD i default) (slots.getD j default) ||
        !(assign.getD i false && assign.getD j false)))

/-- A full CP-SAT assignment satisfying every constraint the model posts. -/
def cpFeasible (tasks : List Task) (slots : List ContiguousSlot)
    (assign : List Bool) (dur : List Int) : Bool :=
  decide (assign.length = slots.length) && decide (dur.length = slots.length) &&
    linkOK slots assign dur && coverageOK tasks slots dur && nonOverlapOK slots assign

/-- The `for h in range(duration)` inner loop of
`_extract_interval_solution`: the hourly entries
`(task_id, date, start_hour + h)` of one slot. -/
def slotEntries (slots : List ContiguousSlot) (dur : List Int) (i : Nat) :
    List (Int × Nat × Int) :=
  (List.range (dur.getD i 0).toNat).map (fun h : Nat =>
    ((slots.getD i default).task_id, (slots.getD i default).date,
      (slots.getD i default).hour_from + Int.ofNat h))

/-- `_extract_interval_solution`: for each assigned slot emit its hourly
entries. -/
def extractedEntries (slots : List ContiguousSlot) (assign : List Bool)
    (dur : List Int) : List (Int × Nat × Int) :=
  (List.range slots.length).flatMap (fun i =>
    if assign.getD i false then slotEntries slots dur i else [])

/-- The CP solver modelled as an oracle: handed a satisfying assignment
it reports success (`OPTIMAL`/`FEASIBLE`) and `solve` extracts from it;
otherwise no extraction happens.  The real solver is external
(OR-Tools); only its contract matters here. -/
def cpSolveWith (tasks : List Task) (slots : List ContiguousSlot)
    (assign : List Bool) (dur : List Int) : Option (List (Int × Nat × Int)) :=
  if cpFeasible tasks slots assign dur then some (extractedEntries slots assign dur)
  else none

/-- `_extend_planning_horizon`: multiply by the extension factor,
truncate with `int(...)`, and enforce a minimum increase of 7 days. -/
def extendHorizon (d : Int) (factor : ℚ) : Int :=
  let n := pyInt (qMul (d : ℚ) factor)
  if n - d < 7 then d + 7 else n

/-- Any extension grows the horizon by at least 7 days. -/
theorem extendHorizon_ge (d : Int) (factor : ℚ) :
    d + 7 ≤ extendHorizon d factor := by
  unfold extendHorizon
  dsimp only
  split
  · omega
  · omega

/-- The `while self.current_horizon_days <= max_horizon_days` loop of
`IntervalSchedulingModel.solve`, with the solver's verdict at each
horizon abstracted into `ok`: success returns the solved horizon, any
non-success extends the horizon, and the loop fails once the horizon
exceeds the cap. -/
def cpSolveLoopGo (ok : Int → Bool) (factor : ℚ) (maxDays : Int) :
    Nat → Int → Option Int
  | 0, _ => none
  | fuel + 1, d =>
    if d ≤ maxDays then
      if ok d then some d
      else cpSolveLoopGo ok factor maxDays fuel (extendHorizon d factor)
    else none

/-- Fuel sufficient for `cpSolveLoopGo` to simulate the unbounded source
loop from horizon `d`: the horizon grows by at least 7 per iteration, so
`maxDays + 8 - d` steps always reach the exit. -/
def cpFuel (maxDays d : Int) : Nat :=
  (maxDays + 8 - d).toNat

/-- The CP solve loop entered at horizon `d`. -/
def cpSolveLoop (ok : Int → Bool) (factor : ℚ) (maxDays : Int) (d : Int) :
    Option Int :=
  cpSolveLoopGo ok factor maxDays (cpFuel maxDays d) d

/-! ## Concrete evaluation instances -/

/-- A task row with equal remaining and planned hours, priority 50, a
leaf at hierarchy level 0 — the shape used by the concrete instances. -/
def mkTask (i u : Int) (rem : ℚ) : Task :=
  ⟨i, u, rem, 50, rem, 0, true⟩

/-- Eleven tasks for eleven users (forcing the greedy route); task 1
needs 4 hours and its user has two overlapping Monday calendar rows. -/
def c1Tasks : List Task :=
  mkTask 1 1 4 :: (List.range 10).map (fun k => mkTask (k + 2) (k + 2) 1)

/-- Calendar rows for `c1Tasks`: user 1 has the overlapping Monday rows
9–11 and 9–12 (distinct triples, so deduplication keeps both); users
2–11 have Monday 9–10. -/
def c1Cal : List CalendarRow :=
  ⟨1, 0, 9, 11⟩ :: ⟨1, 0, 9, 12⟩ :: (List.range 10).map (fun k => ⟨k + 2, 0, 9, 10⟩)

/-- Eleven one-hour tasks for eleven users, every one schedulable. -/
def c4Tasks : List Task :=
  (List.range 11).map (fun k => mkTask (k + 1) (k + 1) 1)

/-- One Monday 9–10 calendar row per task of `c4Tasks`. -/
def c4Cal : List CalendarRow :=
  (List.range 11).map (fun k => ⟨k + 1, 0, 9, 10⟩)

/-- A single task asking for 2.5 hours. -/
def c2Tasks : List Task := [mkTask 1 1 (mkRat 5 2)]

/-- A Monday 9–12 calendar row for the task of `c2Tasks`. -/
def c2Cal : List CalendarRow := [⟨1, 0, 9, 12⟩]

/-- The contiguous slots the interval model builds for `c2Tasks`. -/
def c2Slots : List ContiguousSlot := intervalSlots c2Tasks c2Cal [] 0 28

/-- A single one-hour task. -/
def c3Tasks : List Task := [mkTask 1 1 1]

/-- A Sunday 9–10 calendar row; with `localToday = 6` (a Sunday) the
first horizon day itself matches. -/
def c3Cal : List CalendarRow := [⟨1, 6, 9, 10⟩]

/-- The interval model's slots for `c3Tasks` when today (local) is day 6. -/
def c3Slots : List ContiguousSlot := intervalSlots c3Tasks c3Cal [] 6 28

/-- Two one-hour tasks of the same user 9. -/
def c7Tasks : List Task := [mkTask 1 9 1, mkTask 2 9 1]

/-- Sunday 9–10 calendar rows for both tasks of `c7Tasks`. -/
def c7Cal : List CalendarRow := [⟨1, 6, 9, 10⟩, ⟨2, 6, 9, 10⟩]

/-- A leave attached to task 1 covering days 6–20. -/
def c7Leaves : List Leave := [⟨1, 6, 20⟩]

/-- The interval model's slots for `c7Tasks` under `c7Leaves`: task 1
keeps only day 27, task 2 keeps days 6, 13, 20 and 27. -/
def c7Slots : List ContiguousSlot := intervalSlots c7Tasks c7Cal c7Leaves 6 28

/-! ## Claims -/

/-- C5: the hybrid router selects the greedy scheduler exactly when the
task count exceeds 50, or the summed remaining hours exceed 1000, or the
number of distinct users exceeds 10, or the average remaining hours per
task (0 for an empty task set) exceeds 100; otherwise the CP interval
scheduler is selected. -/
theorem C5_router_characterization (tasks : List Task) :
    should_use_greedy tasks = true ↔
      (tasks.length > 50 ∨ (tasks.map (·.remaining_hours)).sum > 1000 ∨
        (tasks.map (·.user_id)).toFinset.card > 10 ∨
        (if tasks.length = 0 then (0 : ℚ)
         else (tasks.map (·.remaining_hours)).sum / tasks.length) > 100) := by
  unfold should_use_greedy
  simp only [qSum_eq, qDiv_eq, dedupFirst_length_eq_card, Bool.or_eq_true,
    decide_eq_true_eq]
  by_cases h : tasks.length = 0
  · simp only [h, if_pos rfl, gt_iff_lt]
    simp [h]
    tauto
  · have h' : 0 < tasks.length := Nat.pos_of_ne_zero h
    simp only [h, if_neg h, gt_iff_lt]
    simp [h']
    tauto

set_option maxRecDepth 40000 in
/-- C1 (code bug): at `c1Tasks`/`c1Cal` — a legal input whose user 1 has
two overlapping calendar rows — the greedy route is taken, `solve`
returns success, yet the multi-day strategy emits the pairs
`(user 1, day 7, hour 9)` and `(user 1, day 7, hour 10)` twice for task 1
and the post-solve validator counts `overlaps_detected = 2`, violating
the at-most-one-slot-per-`(user, date, hour)` invariant the claim
states. -/
theorem C1_validator_reports_overlaps :
    should_use_greedy c1Tasks = true ∧
      (greedySolveE c1Tasks c1Cal [] 6 7 3650).toOption.map
        (fun o => (o.overlaps, o.success)) = some (2, true) := by
  constructor
  · decide
  · decide

set_option maxRecDepth 40000 in
/-- C4 (code bug): at `c4Tasks`/`c4Cal` the greedy pass schedules every
task (the solution keys are the strings "1"–"11"), so the claim says
`unscheduled = all_tasks − scheduled_tasks = ∅` and no residual CP run
happens; but the code subtracts string keys from integer ids, so the
difference is the full task set (11 elements) and the residual CP run is
triggered. -/
theorem C4_residual_runs_despite_full_schedule :
    (greedySolveE c4Tasks c4Cal [] 6 7 3650).toOption.map
        (fun o =>
          (solutionKeys o.schedule,
            (unscheduledTasks (c4Tasks.map (·.id)) (solutionKeys o.schedule)).length,
            residualTriggered
              (unscheduledTasks (c4Tasks.map (·.id)) (solutionKeys o.schedule)))) =
      some (["1", "2", "3", "4", "5", "6", "7", "8", "9", "10", "11"], 11, true) := by
  decide

set_option maxRecDepth 40000 in
/-- C10: on an empty task set the greedy solve loop exhausts all 5
horizon extensions, the statistics epilogue divides by the zero task
count (`ZeroDivisionError`), the exception is caught, and `solve`
returns `False` instead of a successful empty solution. -/
theorem C10_empty_tasks_returns_false :
    (solveLoop [] [] [] 7 3650 28).extensions = 5 ∧
      greedySolveE [] [] [] 6 28 3650 = Except.error "ZeroDivisionError" ∧
      greedySolve [] [] [] 6 28 3650 = false := by
  refine ⟨by decide, by rfl, by decide⟩

/-- The extension chain grows by at least 7 per step. -/
theorem chain_ge (factor : ℚ) (d : Int) (n : Nat) :
    d + 7 * n ≤ (fun x => extendHorizon x factor)^[n] d := by
  induction n with
  | zero => simp
  | succ n ih =>
    rw [Function.iterate_succ_apply']
    have := extendHorizon_ge ((fun x => extendHorizon x factor)^[n] d) factor
    push_cast
    push_cast at ih
    omega

theorem cpGo_none_iff (ok : Int → Bool) (factor : ℚ) (maxDays : Int) :
    ∀ (fuel : Nat) (d : Int), cpFuel maxDays d ≤ fuel →
      (cpSolveLoopGo ok factor maxDays fuel d = none ↔
        ∀ n : Nat, (fun x => extendHorizon x factor)^[n] d ≤ maxDays →
          ok ((fun x => extendHorizon x factor)^[n] d) = false) := by
  intro fuel
  induction fuel with
  | zero =>
    intro d hfuel
    have hd : maxDays < d := by
      unfold cpFuel at hfuel
      omega
    simp only [cpSolveLoopGo, true_iff]
    intro n hn
    exfalso
    have := chain_ge factor d n
    omega
  | succ fuel ih =>
    intro d hfuel
    rw [cpSolveLoopGo]
    by_cases hd : d ≤ maxDays
    · rw [if_pos hd]
      by_cases hok : ok d = true
      · rw [if_pos hok]
        simp only [reduceCtorEq, false_iff, not_forall]
        exact ⟨0, by simpa using ⟨hd, by simpa using hok⟩⟩
      · rw [if_neg hok]
        have hfuel' : cpFuel maxDays (extendHorizon d factor) ≤ fuel := by
          have := extendHorizon_ge d factor
          unfold cpFuel at hfuel ⊢
          omega
        rw [ih _ hfuel']
        constructor
        · intro h n hn
          match n with
          | 0 => simpa using Bool.eq_false_iff.mpr (by simpa using hok)
          | n + 1 =>
            rw [Function.iterate_succ_apply] at hn ⊢
            exact h n hn
        · intro h n hn
          rw [← Function.iterate_succ_apply] at hn ⊢
          exact h (n + 1) hn
    · rw [if_neg hd]
      simp only [true_iff]
      intro n hn
      exfalso
      have := chain_ge factor d n
      omega

theorem cpGo_fuel_irrel (ok : Int → Bool) (factor : ℚ) (maxDays : Int) :
    ∀ (f1 f2 : Nat) (d : Int), cpFuel maxDays d ≤ f1 → cpFuel maxDays d ≤ f2 →
      cpSolveLoopGo ok factor maxDays f1 d = cpSolveLoopGo ok factor maxDays f2 d := by
  intro f1
  induction f1 with
  | zero =>
    intro f2 d h1 h2
    have hd : maxDays < d := by
      unfold cpFuel at h1
      omega
    match f2 with
    | 0 => rfl
    | f2 + 1 =>
      rw [cpSolveLoopGo, cpSolveLoopGo, if_neg (by omega)]
  | succ f1 ih =>
    intro f2 d h1 h2
    match f2 with
    | 0 =>
      have hd : maxDays < d := by
        unfold cpFuel at h2
        omega
      rw [cpSolveLoopGo, cpSolveLoopGo, if_neg (by omega)]
    | f2 + 1 =>
      rw [cpSolveLoopGo, cpSolveLoopGo]
      by_cases hd : d ≤ maxDays
      · rw [if_pos hd, if_pos hd]
        by_cases hok : ok d = true
        · rw [if_pos hok, if_pos hok]
        · rw [if_neg hok, if_neg hok]
          have hext := extendHorizon_ge d factor
          exact ih f2 (extendHorizon d factor)
            (by unfold cpFuel at h1 ⊢; omega) (by unfold cpFuel at h2 ⊢; omega)
      · rw [if_neg hd, if_neg hd]

/-- C8 counterexample: at horizon 29 with factor 1.25 the source extends
to `int(29 * 1.25) = 36`, while the claim's `ceil(29 * 1.25)` (under the
same minimum-increase rule) gives 37. -/
theorem C8_extension_truncates_not_ceils :
    extendHorizon 29 (mkRat 5 4) = 36 ∧
      max ((29 : Int) + 7) (Int.ceil (qMul (29 : ℚ) (mkRat 5 4))) = 37 := by
  constructor
  · decide
  · decide

/-- C8 (amended): the CP retry loop's horizon update is
`max(D + 7, int(D * factor))` — truncation toward zero, not `ceil` — a
non-success at a horizon within the cap extends and retries, and the
loop reports failure exactly when every horizon of the extension chain
that is within `max_horizon_days` is unsuccessful (the first horizon
beyond the cap ends the loop). -/
theorem C8_cp_loop_characterization (ok : Int → Bool) (factor : ℚ) (maxDays d : Int) :
    extendHorizon d factor = max (d + 7) (pyInt (qMul (d : ℚ) factor)) ∧
      (d ≤ maxDays → ok d = false →
        cpSolveLoop ok factor maxDays d =
          cpSolveLoop ok factor maxDays (extendHorizon d factor)) ∧
      (d ≤ maxDays → ok d = true → cpSolveLoop ok factor maxDays d = some d) ∧
      (cpSolveLoop ok factor maxDays d = none ↔
        ∀ n : Nat, (fun x => extendHorizon x factor)^[n] d ≤ maxDays →
          ok ((fun x => extendHorizon x factor)^[n] d) = false) := by
  refine ⟨?_, ?_, ?_, ?_⟩
  · unfold extendHorizon
    dsimp only
    split <;> omega
  · intro hd hok
    unfold cpSolveLoop
    have hfuel : 1 ≤ cpFuel maxDays d := by
      unfold cpFuel
      omega
    obtain ⟨f, hf⟩ : ∃ f, cpFuel maxDays d = f + 1 :=
      ⟨cpFuel maxDays d - 1, by omega⟩
    rw [hf, cpSolveLoopGo, if_pos hd, if_neg (by simp [hok])]
    refine cpGo_fuel_irrel ok factor maxDays f _ _ ?_ le_rfl
    have := extendHorizon_ge d factor
    unfold cpFuel at hf ⊢
    omega
  · intro hd hok
    unfold cpSolveLoop
    have hfuel : 1 ≤ cpFuel maxDays d := by
      unfold cpFuel
      omega
    obtain ⟨f, hf⟩ : ∃ f, cpFuel maxDays d = f + 1 :=
      ⟨cpFuel maxDays d - 1, by omega⟩
    rw [hf, cpSolveLoopGo, if_pos hd, if_pos hok]
  · exact cpGo_none_iff ok factor maxDays (cpFuel maxDays d) d le_rfl

/-- C8 witness: the characterization instantiated at a never-succeeding
solver, factor 1.25, cap 20 and start horizon 14. -/
theorem C8_cp_loop_characterization_witness :
    extendHorizon 14 (mkRat 5 4) = max ((14 : Int) + 7) (pyInt (qMul (14 : ℚ) (mkRat 5 4))) ∧
      ((14 : Int) ≤ 20 → (fun _ : Int => false) 14 = false →
        cpSolveLoop (fun _ => false) (mkRat 5 4) 20 14 =
          cpSolveLoop (fun _ => false) (mkRat 5 4) 20 (extendHorizon 14 (mkRat 5 4))) ∧
      ((14 : Int) ≤ 20 → (fun _ : Int => false) 14 = true →
        cpSolveLoop (fun _ => false) (mkRat 5 4) 20 14 = some 14) ∧
      (cpSolveLoop (fun _ => false) (mkRat 5 4) 20 14 = none ↔
        ∀ n : Nat, (fun x => extendHorizon x (mkRat 5 4))^[n] 14 ≤ 20 →
          (fun _ : Int => false) ((fun x => extendHorizon x (mkRat 5 4))^[n] 14) = false) :=
  C8_cp_loop_characterization (fun _ => false) (mkRat 5 4) 20 14

/-- A success rate of at least 0.8 ends the greedy loop at once with the
pass just computed. -/
theorem solveLoopGo_stop (tasks : List Task) (cal : List CalendarRow)
    (leaves : List Leave) (d0 maxDays fuel attempts horizon : Nat)
    (prev : List (Int × List ScheduledSlot))
    (hrate : loopSuccessRate (greedyPass tasks cal leaves d0 horizon).length
      tasks.length ≥ mkRat 4 5) :
    solveLoopGo tasks cal leaves d0 maxDays (fuel + 1) attempts horizon prev =
      ⟨greedyPass tasks cal leaves d0 horizon, horizon, attempts⟩ := by
  rw [solveLoopGo]
  simp only [ge_iff_le] at hrate
  rw [if_pos hrate]

/-- Invariant of the greedy retry loop: the extension counter moves from
`attempts` by at most `fuel`, and the final horizon is the doubled (and
capped) initial horizon. -/
theorem solveLoopGo_spec (tasks : List Task) (cal : List CalendarRow)
    (leaves : List Leave) (d0 maxDays : Nat) :
    ∀ (fuel attempts horizon : Nat) (prev : List (Int × List ScheduledSlot)),
      horizon ≤ maxDays →
      attempts ≤ (solveLoopGo tasks cal leaves d0 maxDays fuel attempts horizon prev).extensions ∧
      (solveLoopGo tasks cal leaves d0 maxDays fuel attempts horizon prev).extensions ≤
        attempts + fuel ∧
      (solveLoopGo tasks cal leaves d0 maxDays fuel attempts horizon prev).horizon =
        min (horizon * 2 ^
          ((solveLoopGo tasks cal leaves d0 maxDays fuel attempts horizon prev).extensions
            - attempts)) maxDays := by
  intro fuel
  induction fuel with
  | zero =>
    intro attempts horizon prev hcap
    simp only [solveLoopGo]
    refine ⟨le_rfl, by omega, ?_⟩
    simp [Nat.min_eq_left hcap]
  | succ fuel ih =>
    intro attempts horizon prev hcap
    rw [solveLoopGo]
    split
    · exact ⟨le_rfl, Nat.le_add_right _ _, by simp [Nat.min_eq_left hcap]⟩
    · split
      · exact ⟨le_rfl, Nat.le_add_right _ _, by simp [Nat.min_eq_left hcap]⟩
      · have hmin : min (horizon * 2) maxDays ≤ maxDays := Nat.min_le_right _ _
        obtain ⟨h1, h2, h3⟩ := ih (attempts + 1) (min (horizon * 2) maxDays)
          (greedyPass tasks cal leaves d0 horizon) hmin
        refine ⟨by omega, by omega, ?_⟩
        rw [h3]
        set e := (solveLoopGo tasks cal leaves d0 maxDays fuel (attempts + 1)
          (min (horizon * 2) maxDays) (greedyPass tasks cal leaves d0 horizon)).extensions
        have hk : e - attempts = (e - (attempts + 1)) + 1 := by omega
        rw [hk]
        set k := e - (attempts + 1)
        have hpow : 1 ≤ 2 ^ k := Nat.one_le_two_pow
        rcases le_or_lt (horizon * 2) maxDays with hc | hc
        · rw [Nat.min_eq_left hc, pow_succ]
          ring_nf
        · rw [Nat.min_eq_right (Nat.le_of_lt hc)]
          have hL : maxDays ≤ maxDays * 2 ^ k := Nat.le_mul_of_pos_right _ (by omega)
          have hR : maxDays ≤ horizon * 2 ^ (k + 1) := by
            have : horizon * 2 ≤ horizon * 2 ^ (k + 1) := by
              have h2k : 2 ≤ 2 ^ (k + 1) := by
                calc 2 = 2 ^ 1 := by norm_num
                _ ≤ 2 ^ (k + 1) := Nat.pow_le_pow_right (by norm_num) (by omega)
              exact Nat.mul_le_mul_left _ h2k
            omega
          rw [Nat.min_eq_right hL, Nat.min_eq_right hR]

/-- C6: the greedy retry loop stops immediately when the first pass
reaches a success rate of 0.8 (performing no extension); every pass
rebuilds the availability blocks and the ledger from scratch
(`greedyPass` is a pure function of the horizon); at most 5 extensions
are performed; and the final horizon is the initial one doubled per
extension, capped at `max_horizon_days`. -/
theorem C6_greedy_retry_loop (tasks : List Task) (cal : List CalendarRow)
    (leaves : List Leave) (d0 maxDays h0 : Nat) (hcap : h0 ≤ maxDays) :
    (loopSuccessRate (greedyPass tasks cal leaves d0 h0).length tasks.length ≥ mkRat 4 5 →
        solveLoop tasks cal leaves d0 maxDays h0 =
          ⟨greedyPass tasks cal leaves d0 h0, h0, 0⟩) ∧
      (solveLoop tasks cal leaves d0 maxDays h0).extensions ≤ 5 ∧
      (solveLoop tasks cal leaves d0 maxDays h0).horizon =
        min (h0 * 2 ^ (solveLoop tasks cal leaves d0 maxDays h0).extensions) maxDays := by
  refine ⟨?_, ?_, ?_⟩
  · intro hrate
    unfold solveLoop
    exact solveLoopGo_stop tasks cal leaves d0 maxDays 4 0 h0 [] hrate
  · obtain ⟨h1, h2, h3⟩ := solveLoopGo_spec tasks cal leaves d0 maxDays 5 0 h0 [] hcap
    unfold solveLoop
    omega
  · obtain ⟨h1, h2, h3⟩ := solveLoopGo_spec tasks cal leaves d0 maxDays 5 0 h0 [] hcap
    unfold solveLoop
    simpa using h3

/-- C6 witness: the loop specification instantiated at the empty
instance with initial horizon 28 and cap 3650. -/
theorem C6_greedy_retry_loop_witness :
    (loopSuccessRate (greedyPass [] [] [] 7 28).length ([] : List Task).length ≥ mkRat 4 5 →
        solveLoop [] [] [] 7 3650 28 = ⟨greedyPass [] [] [] 7 28, 28, 0⟩) ∧
      (solveLoop [] [] [] 7 3650 28).extensions ≤ 5 ∧
      (solveLoop [] [] [] 7 3650 28).horizon =
        min (28 * 2 ^ (solveLoop [] [] [] 7 3650 28).extensions) 3650 :=
  C6_greedy_retry_loop [] [] [] 7 3650 28 (by decide)

/-- C9: a task owning no `ContiguousSlot` gets no duration-coverage
constraint; any assignment satisfying the remaining constraints makes the
modelled solver succeed, `solve` extracts a solution in which the task
has zero entries, and no infeasibility or error is reported for it. -/
theorem C9_slotless_task_unconstrained (tasks : List Task)
    (slots : List ContiguousSlot) (assign : List Bool) (dur : List Int) (t : Task)
    (hnoslot : ∀ s ∈ slots, s.task_id ≠ t.id)
    (hfeas : cpFeasible tasks slots assign dur = true) :
    (∀ c ∈ coverageConstraints tasks slots, c.1 ≠ t.id) ∧
      cpSolveWith tasks slots assign dur = some (extractedEntries slots assign dur) ∧
      ∀ e ∈ extractedEntries slots assign dur, e.1 ≠ t.id := by
  refine ⟨?_, ?_, ?_⟩
  · intro c hc
    simp only [coverageConstraints, List.mem_filterMap] at hc
    obtain ⟨t', _ht', hsome⟩ := hc
    by_cases hany : slots.any (fun s => decide (s.task_id = t'.id)) = true
    · rw [if_pos hany] at hsome
      obtain ⟨s, hs, hid⟩ := List.any_eq_true.mp hany
      intro hct
      apply hnoslot s hs
      have hc1 : c.1 = t'.id := by
        have := Option.some.injEq _ _ ▸ hsome
        rw [← Option.some_inj.mp hsome]
      rw [decide_eq_true_eq] at hid
      rw [hid, ← hc1, hct]
    · rw [if_neg hany] at hsome
      exact absurd hsome (by simp)
  · unfold cpSolveWith
    rw [if_pos hfeas]
  · intro e he
    simp only [extractedEntries, List.mem_flatMap, List.mem_range] at he
    obtain ⟨i, hi, hmem⟩ := he
    by_cases ha : assign.getD i false = true
    · rw [if_pos ha] at hmem
      unfold slotEntries at hmem
      simp only [List.mem_map, List.mem_range] at hmem
      obtain ⟨h, _, he'⟩ := hmem
      have hs : slots.getD i default ∈ slots := by
        rw [List.getD_eq_getElem slots default hi]
        exact List.getElem_mem hi
      have := hnoslot _ hs
      rw [← he']
      exact this
    · rw [if_neg ha] at hmem
      exact absurd hmem (List.not_mem_nil e)

/-- C9 witness: one task with no calendar rows; the empty slot list and
empty assignment are feasible, the solver succeeds and emits nothing. -/
theorem C9_slotless_task_unconstrained_witness :
    (∀ s ∈ intervalSlots [mkTask 1 1 1] [] [] 0 28, s.task_id ≠ (mkTask 1 1 1).id) ∧
      cpFeasible [mkTask 1 1 1] (intervalSlots [mkTask 1 1 1] [] [] 0 28) [] [] = true ∧
      ((∀ c ∈ coverageConstraints [mkTask 1 1 1] (intervalSlots [mkTask 1 1 1] [] [] 0 28),
          c.1 ≠ (mkTask 1 1 1).id) ∧
        cpSolveWith [mkTask 1 1 1] (intervalSlots [mkTask 1 1 1] [] [] 0 28) [] [] =
          some (extractedEntries (intervalSlots [mkTask 1 1 1] [] [] 0 28) [] []) ∧
        ∀ e ∈ extractedEntries (intervalSlots [mkTask 1 1 1] [] [] 0 28) [] [],
          e.1 ≠ (mkTask 1 1 1).id) :=
  ⟨by decide, by decide,
    C9_slotless_task_unconstrained _ _ _ _ _ (by decide) (by decide)⟩

/-- C2 counterexample: for a task with `remaining_hours = planned_hours
= 2.5` the interval model posts the duration constraint `2` —
`int(planned_hours)`, truncation — while the claim demands
`ceil(remaining_hours) = 3`. -/
theorem C2_cp_posts_truncated_planned :
    coverageConstraints c2Tasks c2Slots = [(1, 2)] ∧
      Int.ceil (mkTask 1 1 (mkRat 5 2)).remaining_hours = 3 := by
  constructor
  · decide
  · decide

/-- C3 counterexample: with the current local and UTC date both equal to
day 6, the interval model's horizon starts at **today** (day 6), a
feasible assignment schedules the task at `(date 6, hour 9)` on the CP
path, and day 6 is strictly before tomorrow (day 7). -/
theorem C3_cp_schedules_before_tomorrow :
    intervalDays 6 28 = (List.range 28).map (6 + ·) ∧
      cpSolveWith c3Tasks c3Slots [true, false, false, false] [1, 0, 0, 0] =
        some [(1, 6, 9)] ∧
      (6 : Nat) < 6 + 1 := by
  refine ⟨by decide, by decide, by decide⟩

/-- C7 counterexample: user 9 owns tasks 1 and 2; the leave of task 1
covers days 6–20; on the CP path a feasible assignment still schedules
task 2 of the same user on day 6, inside that leave. -/
theorem C7_cp_ignores_same_user_leave :
    cpSolveWith c7Tasks c7Slots [true, true, false, false, false] [1, 1, 0, 0, 0] =
      some [(1, 27, 9), (2, 6, 9)] ∧
      (∃ t ∈ c7Tasks, t.id = 2 ∧ t.user_id = 9) ∧
      (∃ t ∈ c7Tasks, t.id = 1 ∧ t.user_id = 9) ∧
      (∃ l ∈ c7Leaves, l.task_id = 1 ∧ l.date_from ≤ 6 ∧ 6 ≤ l.date_to) := by
  refine ⟨by decide, by decide, by decide, by decide⟩

/-! ## Provenance of greedy slots

Every provisional slot a placement strategy emits is built for the task
and user it was asked about and lies, date and hour, inside one of the
user's available blocks.  These lemmas walk that property through every
strategy and the greedy loop. -/

theorem mem_intRange (a b h : Int) : h ∈ intRange a b ↔ a ≤ h ∧ h < b := by
  unfold intRange
  simp only [List.mem_map, List.mem_range, Int.ofNat_eq_coe]
  constructor
  · rintro ⟨i, hi, rfl⟩
    omega
  · rintro ⟨h1, h2⟩
    exact ⟨(h - a).toNat, by omega, by omega⟩

/-- The slot belongs to the given task and user and sits inside block
`b`. -/
def slotIn (b : AvailableBlock) (tid uid : Int) (s : ScheduledSlot) : Prop :=
  s.task_id = tid ∧ s.user_id = uid ∧ s.date = b.date ∧
    b.hour_from ≤ s.hour ∧ s.hour < b.hour_to

theorem freeSlots_slotIn (occ : Occ) (tid uid : Int) (b : AvailableBlock)
    (s : ScheduledSlot) (hs : s ∈ freeSlotsOfBlock occ tid uid b) :
    slotIn b tid uid s := by
  unfold freeSlotsOfBlock at hs
  simp only [List.mem_filterMap] at hs
  obtain ⟨h, hh, hsome⟩ := hs
  rw [mem_intRange] at hh
  by_cases hocc : (b.date, h) ∈ occ
  · rw [if_pos hocc] at hsome
    exact absurd hsome (by simp)
  · rw [if_neg hocc] at hsome
    obtain rfl := Option.some_inj.mp hsome
    exact ⟨rfl, rfl, rfl, hh.1, hh.2⟩

theorem bestRunGo_mem (occ : Occ) (tid uid : Int) (date : Nat) :
    ∀ (hours : List Int) (cur best : List ScheduledSlot) (s : ScheduledSlot),
      s ∈ bestRunGo occ tid uid date hours cur best →
      s ∈ cur ∨ s ∈ best ∨ ∃ h ∈ hours, s = ⟨tid, uid, date, h⟩ := by
  intro hours
  induction hours with
  | nil =>
    intro cur best s hs
    rw [bestRunGo] at hs
    split at hs
    · exact Or.inl hs
    · exact Or.inr (Or.inl hs)
  | cons h rest ih =>
    intro cur best s hs
    rw [bestRunGo] at hs
    split at hs
    · rcases ih _ _ _ hs with h1 | h2 | ⟨h', hh', he⟩
      · exact absurd h1 (List.not_mem_nil s)
      · split at h2
        · exact Or.inl h2
        · exact Or.inr (Or.inl h2)
      · exact Or.inr (Or.inr ⟨h', List.mem_cons_of_mem _ hh', he⟩)
    · rcases ih _ _ _ hs with h1 | h2 | ⟨h', hh', he⟩
      · rcases List.mem_append.mp h1 with h1a | h1b
        · exact Or.inl h1a
        · exact Or.inr (Or.inr ⟨h, List.mem_cons_self _ _,
            by simpa using h1b⟩)
      · exact Or.inr (Or.inl h2)
      · exact Or.inr (Or.inr ⟨h', List.mem_cons_of_mem _ hh', he⟩)

theorem bestRunInBlock_slotIn (occ : Occ) (tid uid : Int) (b : AvailableBlock)
    (s : ScheduledSlot) (hs : s ∈ bestRunInBlock occ tid uid b) :
    slotIn b tid uid s := by
  unfold bestRunInBlock at hs
  rcases bestRunGo_mem occ tid uid b.date _ _ _ _ hs with h1 | h2 | ⟨h, hh, he⟩
  · exact absurd h1 (List.not_mem_nil s)
  · exact absurd h2 (List.not_mem_nil s)
  · rw [mem_intRange] at hh
    subst he
    exact ⟨rfl, rfl, rfl, hh.1, hh.2⟩

theorem findSingleDayGo_mem (occ : Occ) (need : Nat) (tid uid : Int) :
    ∀ (blocks : List AvailableBlock) (s : ScheduledSlot),
      s ∈ findSingleDayGo occ need tid uid blocks →
      ∃ b ∈ blocks, slotIn b tid uid s := by
  intro blocks
  induction blocks with
  | nil =>
    intro s hs
    simp [findSingleDayGo] at hs
  | cons b rest ih =>
    intro s hs
    rw [findSingleDayGo] at hs
    split at hs
    · simp only [] at hs
      split at hs
      · have hs' : s ∈ bestRunInBlock occ tid uid b := List.take_subset _ _ hs
        exact ⟨b, List.mem_cons_self _ _, bestRunInBlock_slotIn occ tid uid b s hs'⟩
      · obtain ⟨b', hb', hin⟩ := ih s hs
        exact ⟨b', List.mem_cons_of_mem _ hb', hin⟩
    · obtain ⟨b', hb', hin⟩ := ih s hs
      exact ⟨b', List.mem_cons_of_mem _ hb', hin⟩

theorem findSingleDay_mem (blocks : List AvailableBlock) (occ : Occ) (need : Nat)
    (tid uid : Int) (s : ScheduledSlot) (hs : s ∈ findSingleDay blocks occ need tid uid) :
    ∃ b ∈ blocks, slotIn b tid uid s := by
  unfold findSingleDay at hs
  obtain ⟨b, hb, hin⟩ := findSingleDayGo_mem occ need tid uid _ s hs
  exact ⟨b, (mem_isort _ _ _).mp hb, hin⟩

theorem dayBlocks_subset (blocks : List AvailableBlock) (d : Nat) :
    dayBlocks blocks d ⊆ blocks :=
  List.filter_subset' _

theorem findMultiDay_mem (blocks : List AvailableBlock) (occ : Occ) (need : Nat)
    (tid uid : Int) (s : ScheduledSlot) (hs : s ∈ findMultiDay blocks occ need tid uid) :
    ∃ b ∈ blocks, slotIn b tid uid s := by
  unfold findMultiDay at hs
  simp only [] at hs
  split at hs
  · have hs' := List.take_subset _ _ hs
    simp only [List.mem_flatMap] at hs'
    obtain ⟨d, _hd, hsb⟩ := hs'
    obtain ⟨b, hb, hsf⟩ := hsb
    refine ⟨b, ?_, freeSlots_slotIn occ tid uid b s hsf⟩
    exact dayBlocks_subset blocks d ((mem_isort _ _ _).mp hb)
  · exact absurd hs (List.not_mem_nil s)

theorem bestDaySlots_mem (blocks : List AvailableBlock) (occ : Occ) (tid uid : Int)
    (d : Nat) (s : ScheduledSlot) (hs : s ∈ bestDaySlots blocks occ tid uid d) :
    ∃ b ∈ blocks, slotIn b tid uid s := by
  unfold bestDaySlots at hs
  suffices H : ∀ (bl : List AvailableBlock) (acc : List ScheduledSlot),
      s ∈ bl.foldl (fun best b =>
        bestRunGo occ tid uid b.date (intRange b.hour_from b.hour_to) [] best) acc →
      s ∈ acc ∨ ∃ b ∈ bl, slotIn b tid uid s by
    rcases H _ _ hs with h | ⟨b, hb, hin⟩
    · exact absurd h (List.not_mem_nil s)
    · exact ⟨b, dayBlocks_subset blocks d ((mem_isort _ _ _).mp hb), hin⟩
  intro bl
  induction bl with
  | nil =>
    intro acc h
    exact Or.inl h
  | cons b rest ih =>
    intro acc h
    rcases ih _ h with h' | ⟨b', hb', hin⟩
    · rcases bestRunGo_mem occ tid uid b.date _ _ _ _ h' with h1 | h2 | ⟨hh, hmem, he⟩
      · exact absurd h1 (List.not_mem_nil s)
      · exact Or.inl h2
      · rw [mem_intRange] at hmem
        subst he
        exact Or.inr ⟨b, List.mem_cons_self _ _, ⟨rfl, rfl, rfl, hmem.1, hmem.2⟩⟩
    · exact Or.inr ⟨b', List.mem_cons_of_mem _ hb', hin⟩

theorem gapGo_subset (s0 : ScheduledSlot) :
    ∀ (l : List ScheduledSlot) (prev : ScheduledSlot), s0 ∈ gapGo prev l → s0 ∈ l := by
  intro l
  induction l with
  | nil =>
    intro prev h
    simp [gapGo] at h
  | cons x rest ih =>
    intro prev h
    rw [gapGo] at h
    split at h
    · rcases List.mem_cons.mp h with h1 | h2
      · exact List.mem_cons.mpr (Or.inl h1)
      · exact List.mem_cons_of_mem _ (ih x h2)
    · exact absurd h (List.not_mem_nil s0)

theorem flexDaySlots_mem (blocks : List AvailableBlock) (occ : Occ) (tid uid : Int)
    (d : Nat) (s : ScheduledSlot) (hs : s ∈ flexDaySlots blocks occ tid uid d) :
    ∃ b ∈ blocks, slotIn b tid uid s := by
  unfold flexDaySlots at hs
  simp only [] at hs
  have key : ∀ s' ∈ isort slotHourLE
      ((dayBlocks blocks d).flatMap (freeSlotsOfBlock occ tid uid)),
      ∃ b ∈ blocks, slotIn b tid uid s' := by
    intro s' hs'
    rw [mem_isort] at hs'
    obtain ⟨b, hb, hsf⟩ := List.mem_flatMap.mp hs'
    exact ⟨b, dayBlocks_subset blocks d hb, freeSlots_slotIn occ tid uid b s' hsf⟩
  split at hs
  · exact absurd hs (List.not_mem_nil s)
  · next s0 rest heq =>
    rcases List.mem_cons.mp hs with h1 | h2
    · exact key s (by rw [heq, h1]; exact List.mem_cons_self _ _)
    · exact key s (by rw [heq]; exact List.mem_cons_of_mem _ (gapGo_subset s rest s0 h2))

theorem findFlexGo1_mem (blocks : List AvailableBlock) (occ : Occ) (need : Nat)
    (tid uid : Int) :
    ∀ (ds : List Nat) (r : List ScheduledSlot),
      findFlexGo1 blocks occ need tid uid ds = some r →
      ∀ s ∈ r, ∃ b ∈ blocks, slotIn b tid uid s := by
  intro ds
  induction ds with
  | nil =>
    intro r hr
    simp [findFlexGo1] at hr
  | cons d rest ih =>
    intro r hr s hs
    rw [findFlexGo1] at hr
    split at hr
    · obtain rfl := Option.some_inj.mp hr
      exact bestDaySlots_mem blocks occ tid uid d s (List.take_subset _ _ hs)
    · exact ih r hr s hs

theorem findFlexGo2_mem (blocks : List AvailableBlock) (occ : Occ) (need : Nat)
    (tid uid : Int) :
    ∀ (ds : List Nat) (selected : List ScheduledSlot) (s : ScheduledSlot),
      s ∈ findFlexGo2 blocks occ need tid uid selected ds →
      s ∈ selected ∨ ∃ b ∈ blocks, slotIn b tid uid s := by
  intro ds
  induction ds with
  | nil =>
    intro selected s hs
    exact Or.inl hs
  | cons d rest ih =>
    intro selected s hs
    rw [findFlexGo2] at hs
    split at hs
    · exact Or.inl hs
    · rcases ih _ s hs with h | h
      · rcases List.mem_append.mp h with h1 | h2
        · exact Or.inl h1
        · exact Or.inr (flexDaySlots_mem blocks occ tid uid d s
            (List.take_subset _ _ h2))
      · exact Or.inr h

theorem findFlexible_mem (blocks : List AvailableBlock) (occ : Occ) (need : Nat)
    (tid uid : Int) (s : ScheduledSlot) (hs : s ∈ findFlexible blocks occ need tid uid) :
    ∃ b ∈ blocks, slotIn b tid uid s := by
  unfold findFlexible at hs
  simp only [] at hs
  split at hs
  · next r hr =>
    exact findFlexGo1_mem blocks occ need tid uid _ r hr s hs
  · split at hs
    · rcases findFlexGo2_mem blocks occ need tid uid _ [] s
        (List.take_subset _ _ hs) with h | h
      · exact absurd h (List.not_mem_nil s)
      · exact h
    · exact absurd hs (List.not_mem_nil s)

theorem findDistributedGo_mem (sorted : List AvailableBlock) (occ : Occ) (need : Nat)
    (tid uid : Int) :
    ∀ (ws : List Nat) (selected : List ScheduledSlot) (s : ScheduledSlot),
      s ∈ findDistributedGo sorted occ need tid uid selected ws →
      s ∈ selected ∨ ∃ b ∈ sorted, slotIn b tid uid s := by
  intro ws
  induction ws with
  | nil =>
    intro selected s hs
    exact Or.inl hs
  | cons w rest ih =>
    intro selected s hs
    rw [findDistributedGo] at hs
    split at hs
    · exact Or.inl hs
    · rcases ih _ s hs with h | h
      · rcases List.mem_append.mp h with h1 | h2
        · exact Or.inl h1
        · have h2' := List.take_subset _ _ h2
          rw [mem_isort] at h2'
          obtain ⟨b, hb, hsf⟩ := List.mem_flatMap.mp h2'
          exact Or.inr ⟨b, List.filter_subset' _ hb, freeSlots_slotIn occ tid uid b s hsf⟩
      · exact Or.inr h

theorem findDistributed_mem (blocks : List AvailableBlock) (occ : Occ) (need : Nat)
    (tid uid : Int) (s : ScheduledSlot) (hs : s ∈ findDistributed blocks occ need tid uid) :
    ∃ b ∈ blocks, slotIn b tid uid s := by
  unfold findDistributed at hs
  simp only [] at hs
  split at hs
  · rcases findDistributedGo_mem _ occ need tid uid _ [] s
      (List.take_subset _ _ hs) with h | ⟨b, hb, hin⟩
    · exact absurd h (List.not_mem_nil s)
    · exact ⟨b, (mem_isort _ _ _).mp hb, hin⟩
  · exact absurd hs (List.not_mem_nil s)

theorem findConsecutiveSlots_mem (blocks : List AvailableBlock) (occ : Occ)
    (q : ℚ) (tid uid : Int) (s : ScheduledSlot)
    (hs : s ∈ findConsecutiveSlots blocks occ q tid uid) :
    ∃ b ∈ blocks, slotIn b tid uid s := by
  unfold findConsecutiveSlots at hs
  simp only [] at hs
  split at hs
  · exact findSingleDay_mem blocks occ _ tid uid s hs
  · split at hs
    · exact findMultiDay_mem blocks occ _ tid uid s hs
    · repeat' split at hs
      all_goals
        first
          | exact findFlexible_mem blocks occ _ tid uid s hs
          | exact findDistributed_mem blocks occ _ tid uid s hs
          | exact absurd hs (List.not_mem_nil s)

/-! ## Slot counts of the greedy strategies

A successful strategy returns exactly the requested number of hours:
every return path is a `take need` of a list checked to be at least
`need` long. -/

theorem findSingleDayGo_len (occ : Occ) (need : Nat) (tid uid : Int) :
    ∀ blocks : List AvailableBlock,
      findSingleDayGo occ need tid uid blocks = [] ∨
      (findSingleDayGo occ need tid uid blocks).length = need := by
  intro blocks
  induction blocks with
  | nil => exact Or.inl rfl
  | cons b rest ih =>
    rw [findSingleDayGo]
    split
    · simp only []
      split
      · next hlen =>
        right
        rw [List.length_take]
        omega
      · exact ih
    · exact ih

theorem findMultiDay_len (blocks : List AvailableBlock) (occ : Occ) (need : Nat)
    (tid uid : Int) :
    findMultiDay blocks occ need tid uid = [] ∨
    (findMultiDay blocks occ need tid uid).length = need := by
  unfold findMultiDay
  simp only []
  split
  · next hlen =>
    right
    rw [List.length_take]
    omega
  · exact Or.inl rfl

theorem findFlexGo1_len (blocks : List AvailableBlock) (occ : Occ) (need : Nat)
    (tid uid : Int) :
    ∀ (ds : List Nat) (r : List ScheduledSlot),
      findFlexGo1 blocks occ need tid uid ds = some r → r.length = need := by
  intro ds
  induction ds with
  | nil =>
    intro r hr
    simp [findFlexGo1] at hr
  | cons d rest ih =>
    intro r hr
    rw [findFlexGo1] at hr
    split at hr
    · next hlen =>
      obtain rfl := Option.some_inj.mp hr
      rw [List.length_take]
      omega
    · exact ih r hr

theorem findFlexible_len (blocks : List AvailableBlock) (occ : Occ) (need : Nat)
    (tid uid : Int) :
    findFlexible blocks occ need tid uid = [] ∨
    (findFlexible blocks occ need tid uid).length = need := by
  unfold findFlexible
  simp only []
  split
  · next r hr =>
    exact Or.inr (findFlexGo1_len blocks occ need tid uid _ r hr)
  · split
    · next hlen =>
      right
      rw [List.length_take]
      omega
    · exact Or.inl rfl

theorem findDistributed_len (blocks : List AvailableBlock) (occ : Occ) (need : Nat)
    (tid uid : Int) :
    findDistributed blocks occ need tid uid = [] ∨
    (findDistributed blocks occ need tid uid).length = need := by
  unfold findDistributed
  simp only []
  split
  · next hlen =>
    right
    rw [List.length_take]
    omega
  · exact Or.inl rfl

theorem findConsecutiveSlots_len (blocks : List AvailableBlock) (occ : Occ)
    (q : ℚ) (tid uid : Int) :
    findConsecutiveSlots blocks occ q tid uid = [] ∨
    (findConsecutiveSlots blocks occ q tid uid).length = (Int.ceil q).toNat := by
  unfold findConsecutiveSlots
  simp only []
  split
  · unfold findSingleDay
    exact findSingleDayGo_len occ _ tid uid _
  · split
    · exact findMultiDay_len blocks occ _ tid uid
    · repeat' split
      all_goals
        first
          | exact findFlexible_len blocks occ _ tid uid
          | exact findDistributed_len blocks occ _ tid uid
          | exact Or.inl rfl

/-! ## Traceability through the greedy loop -/

theorem greedyGo_mem (blocksMap : List (Int × List AvailableBlock)) :
    ∀ (tasksL : List Task) (occMap : List (Int × Occ))
      (sched : List (Int × List ScheduledSlot)) (p : Int × List ScheduledSlot),
      p ∈ greedyGo blocksMap tasksL occMap sched →
      p ∈ sched ∨ ∃ t ∈ tasksL, ∃ occ : Occ,
        p.1 = t.id ∧
        p.2 = findConsecutiveSlots (dictGet blocksMap t.user_id []) occ
          t.remaining_hours t.id t.user_id ∧
        p.2 ≠ [] := by
  intro tasksL
  induction tasksL with
  | nil =>
    intro _ _ p hp
    exact Or.inl hp
  | cons t rest ih =>
    intro occMap sched p hp
    rw [greedyGo] at hp
    split at hp
    · rcases ih _ _ p hp with h | ⟨t', ht', rest'⟩
      · exact Or.inl h
      · exact Or.inr ⟨t', List.mem_cons_of_mem _ ht', rest'⟩
    · next hne =>
      rcases ih _ _ p hp with h | ⟨t', ht', rest'⟩
      · rcases List.mem_append.mp h with h1 | h2
        · exact Or.inl h1
        · have hp2 : p = (t.id, findConsecutiveSlots (dictGet blocksMap t.user_id [])
            (dictGet occMap t.user_id []) t.remaining_hours t.id t.user_id) := by
            simpa using h2
          refine Or.inr ⟨t, List.mem_cons_self _ _, dictGet occMap t.user_id [], ?_, ?_, ?_⟩
          · rw [hp2]
          · rw [hp2]
          · rw [hp2]
            exact hne
      · exact Or.inr ⟨t', List.mem_cons_of_mem _ ht', rest'⟩

theorem generateBlocksForUser_mem (triples : List (Nat × Int × Int))
    (d0 horizon : Nat) (uid : Int) (b : AvailableBlock)
    (hb : b ∈ generateBlocksForUser triples d0 horizon uid) :
    b.user_id = uid ∧ d0 ≤ b.date ∧ b.date < d0 + horizon := by
  unfold generateBlocksForUser at hb
  simp only [List.mem_flatMap, List.mem_range, List.mem_filterMap,
    List.mem_filter] at hb
  obtain ⟨i, hi, tr, _htr, hsome⟩ := hb
  split at hsome
  · obtain rfl := Option.some_inj.mp hsome
    exact ⟨rfl, Nat.le_add_right d0 i, Nat.add_lt_add_left hi d0⟩
  · exact absurd hsome (by simp)

theorem applyLeavesToBlocks_mem (tasks : List Task) (leaves : List Leave)
    (uid : Int) (blocks : List AvailableBlock) (b : AvailableBlock)
    (hb : b ∈ applyLeavesToBlocks tasks leaves uid blocks) :
    b ∈ blocks ∧ ∀ l ∈ leaves, l.task_id ∈ userTaskIds tasks uid →
      ¬(l.date_from ≤ b.date ∧ b.date ≤ l.date_to) := by
  unfold applyLeavesToBlocks at hb
  have h1 := List.mem_filter.mp hb
  refine ⟨h1.1, ?_⟩
  intro l hl hlid
  have hpred := h1.2
  simp only [Bool.not_eq_true', List.any_eq_false] at hpred
  have hmem : l ∈ leaves.filter (fun l2 => l2.task_id ∈ userTaskIds tasks uid) :=
    List.mem_filter.mpr ⟨hl, by simpa using hlid⟩
  have := hpred l hmem
  simpa using this

theorem buildBlocksMap_get (tasks : List Task) (cal : List CalendarRow)
    (leaves : List Leave) (d0 horizon : Nat) (uid : Int) :
    dictGet (buildBlocksMap tasks cal leaves d0 horizon) uid [] = [] ∨
    dictGet (buildBlocksMap tasks cal leaves d0 horizon) uid [] =
      applyLeavesToBlocks tasks leaves uid
        (generateBlocksForUser (userCalendarTriples tasks cal uid) d0 horizon uid) := by
  rcases dictGet_cases (buildBlocksMap tasks cal leaves d0 horizon) uid [] with h | h
  · exact Or.inl h
  · right
    unfold buildBlocksMap
    unfold buildBlocksMap at h
    simp only [List.mem_map] at h
    obtain ⟨u, _hu, hpair⟩ := h
    simp only [Prod.mk.injEq] at hpair
    obtain ⟨h1, h2⟩ := hpair
    subst h1
    rw [← h2]

/-- Full provenance of a greedy-pass schedule entry: it belongs to some
task of the input, carries exactly `ceil(remaining_hours)` slots, and
every slot lies inside one of that task's user's leave-filtered available
blocks. -/
theorem greedyPass_schedule_mem (tasks : List Task) (cal : List CalendarRow)
    (leaves : List Leave) (d0 horizon : Nat) (p : Int × List ScheduledSlot)
    (hp : p ∈ greedyPass tasks cal leaves d0 horizon) :
    ∃ t ∈ tasks, p.1 = t.id ∧ p.2 ≠ [] ∧
      p.2.length = (Int.ceil t.remaining_hours).toNat ∧
      ∀ s ∈ p.2, s.task_id = t.id ∧ s.user_id = t.user_id ∧
        ∃ b ∈ applyLeavesToBlocks tasks leaves t.user_id
          (generateBlocksForUser (userCalendarTriples tasks cal t.user_id)
            d0 horizon t.user_id),
          s.date = b.date ∧ b.hour_from ≤ s.hour ∧ s.hour < b.hour_to := by
  unfold greedyPass at hp
  rcases greedyGo_mem _ _ _ _ p hp with h | ⟨t, ht, occ, h1, h2, h3⟩
  · exact absurd h (List.not_mem_nil p)
  · refine ⟨t, ht, h1, h3, ?_, ?_⟩
    · rw [h2]
      rcases findConsecutiveSlots_len (dictGet (buildBlocksMap tasks cal leaves d0 horizon)
        t.user_id []) occ t.remaining_hours t.id t.user_id with h0 | hl
      · rw [h2, h0] at h3
        exact absurd rfl h3
      · exact hl
    · intro s hs
      rw [h2] at hs
      obtain ⟨b, hb, hin⟩ := findConsecutiveSlots_mem _ occ _ _ _ s hs
      rcases buildBlocksMap_get tasks cal leaves d0 horizon t.user_id with hd | hd
      · rw [hd] at hb
        exact absurd hb (List.not_mem_nil b)
      · rw [hd] at hb
        exact ⟨hin.1, hin.2.1, b, hb, hin.2.2.1, hin.2.2.2.1, hin.2.2.2.2⟩

/-- The schedule a finished retry loop carries is the empty initial one
or a greedy pass at one of the visited horizons. -/
theorem solveLoopGo_schedule (tasks : List Task) (cal : List CalendarRow)
    (leaves : List Leave) (d0 maxDays : Nat) :
    ∀ (fuel attempts horizon : Nat) (prev : List (Int × List ScheduledSlot)),
      (solveLoopGo tasks cal leaves d0 maxDays fuel attempts horizon prev).schedule = prev ∨
      ∃ h, (solveLoopGo tasks cal leaves d0 maxDays fuel attempts horizon prev).schedule =
        greedyPass tasks cal leaves d0 h := by
  intro fuel
  induction fuel with
  | zero =>
    intro attempts horizon prev
    exact Or.inl rfl
  | succ fuel ih =>
    intro attempts horizon prev
    rw [solveLoopGo]
    split
    · exact Or.inr ⟨horizon, rfl⟩
    · split
      · exact Or.inr ⟨horizon, rfl⟩
      · rcases ih (attempts + 1) (min (horizon * 2) maxDays)
          (greedyPass tasks cal leaves d0 horizon) with h | h
        · exact Or.inr ⟨horizon, h⟩
        · exact Or.inr h

/-- Inverting a successful `greedySolveE`: the outcome's schedule is the
retry loop's. -/
theorem greedySolveE_ok (tasks0 : List Task) (cal : List CalendarRow)
    (leaves : List Leave) (utcToday initialHorizon maxDays : Nat)
    (o : GreedyOutcome)
    (ho : greedySolveE tasks0 cal leaves utcToday initialHorizon maxDays = Except.ok o) :
    o.schedule = (solveLoop (sortTasks tasks0) cal leaves (utcToday + 1) maxDays
      (optimalHorizon (sortTasks tasks0) initialHorizon maxDays)).schedule := by
  unfold greedySolveE at ho
  simp only [] at ho
  split at ho
  · exact absurd ho (by simp)
  · have h := Except.ok.inj ho
    rw [← h]

/-! ## Provenance on the CP interval path -/

theorem mem_intervalDays (localToday horizon d : Nat)
    (hd : d ∈ intervalDays localToday horizon) : localToday ≤ d := by
  unfold intervalDays at hd
  simp only [List.mem_map, List.mem_range] at hd
  obtain ⟨i, _, rfl⟩ := hd
  exact Nat.le_add_right _ _

theorem slotsForWeekday_mem (tid uid : Int) (wd : Nat) (hf ht : Int)
    (days : List Nat) (s : ContiguousSlot)
    (hs : s ∈ slotsForWeekday tid uid wd hf ht days) :
    s.task_id = tid ∧ s.user_id = uid ∧ s.date ∈ days := by
  unfold slotsForWeekday at hs
  simp only [List.mem_map, List.mem_filter] at hs
  obtain ⟨d, ⟨hd, _⟩, rfl⟩ := hs
  exact ⟨rfl, rfl, hd⟩

theorem calcContiguousSlots_mem (tasks : List Task) (cal : List CalendarRow)
    (days : List Nat) (s : ContiguousSlot)
    (hs : s ∈ calcContiguousSlots tasks cal days) : s.date ∈ days := by
  unfold calcContiguousSlots at hs
  simp only [List.mem_flatMap] at hs
  obtain ⟨k, _hk, hs2⟩ := hs
  split at hs2
  · exact absurd hs2 (List.not_mem_nil s)
  · obtain ⟨iv, _hiv, hsw⟩ := List.mem_flatMap.mp hs2
    exact (slotsForWeekday_mem _ _ _ _ _ _ _ hsw).2.2

theorem applyLeavesToSlots_mem (leaves : List Leave)
    (slots : List ContiguousSlot) (s : ContiguousSlot)
    (hs : s ∈ applyLeavesToSlots leaves slots) :
    s ∈ slots ∧ ∀ l ∈ leaves, l.task_id = s.task_id →
      ¬(l.date_from ≤ s.date ∧ s.date ≤ l.date_to) := by
  unfold applyLeavesToSlots at hs
  have h1 := List.mem_filter.mp hs
  refine ⟨h1.1, ?_⟩
  intro l hl hlid
  have hpred := h1.2
  simp only [Bool.not_eq_true', List.any_eq_false] at hpred
  have hmem : l ∈ leaves.filter (fun l2 => l2.task_id = s.task_id) :=
    List.mem_filter.mpr ⟨hl, by simpa using hlid⟩
  have := hpred l hmem
  simpa using this

theorem extractedEntries_mem (slots : List ContiguousSlot) (assign : List Bool)
    (dur : List Int) (e : Int × Nat × Int)
    (he : e ∈ extractedEntries slots assign dur) :
    ∃ s ∈ slots, e.1 = s.task_id ∧ e.2.1 = s.date := by
  unfold extractedEntries at he
  simp only [List.mem_flatMap, List.mem_range] at he
  obtain ⟨i, hi, hmem⟩ := he
  by_cases ha : assign.getD i false = true
  · rw [if_pos ha] at hmem
    unfold slotEntries at hmem
    simp only [List.mem_map, List.mem_range] at hmem
    obtain ⟨h, _, he'⟩ := hmem
    have hs : slots.getD i default ∈ slots := by
      rw [List.getD_eq_getElem slots default hi]
      exact List.getElem_mem hi
    exact ⟨slots.getD i default, hs, by rw [← he'], by rw [← he']⟩
  · rw [if_neg ha] at hmem
    exact absurd hmem (List.not_mem_nil e)

theorem mem_userTaskIds (tasks : List Task) (uid x : Int) :
    x ∈ userTaskIds tasks uid ↔ ∃ t ∈ tasks, t.user_id = uid ∧ t.id = x := by
  unfold userTaskIds
  simp only [List.mem_map, List.mem_filter]
  constructor
  · rintro ⟨t, ⟨ht, hu⟩, rfl⟩
    exact ⟨t, ht, by simpa using hu, rfl⟩
  · rintro ⟨t, ht, hu, rfl⟩
    exact ⟨t, ⟨ht, by simpa using hu⟩, rfl⟩

theorem mem_sortTasks (tasks : List Task) (t : Task) :
    t ∈ sortTasks tasks ↔ t ∈ tasks := by
  unfold sortTasks
  exact mem_isort _ _ _

/-- C3 (amended): on the greedy path every scheduled slot's date is at
least **tomorrow relative to the UTC date** at call time; the CP interval
path however generates its horizon from the **current local date**
(`datetime.now().date()`, not tomorrow and not UTC), so its extracted
slots are only guaranteed to be ≥ today and can fall on the current
date. -/
theorem C3_greedy_tomorrow_cp_today (tasks0 : List Task) (cal : List CalendarRow)
    (leaves : List Leave) (utcToday initialHorizon maxDays : Nat) (o : GreedyOutcome)
    (ho : greedySolveE tasks0 cal leaves utcToday initialHorizon maxDays = Except.ok o) :
    (∀ p ∈ o.schedule, ∀ s ∈ p.2, utcToday + 1 ≤ s.date) ∧
      (∀ (tasks : List Task) (cal2 : List CalendarRow) (leaves2 : List Leave)
        (localToday horizon : Nat) (assign : List Bool) (dur : List Int),
        ∀ e ∈ extractedEntries (intervalSlots tasks cal2 leaves2 localToday horizon)
          assign dur, localToday ≤ e.2.1) := by
  constructor
  · intro p hp s hs
    rw [greedySolveE_ok _ _ _ _ _ _ _ ho] at hp
    unfold solveLoop at hp
    rcases solveLoopGo_schedule (sortTasks tasks0) cal leaves (utcToday + 1) maxDays
      5 0 (optimalHorizon (sortTasks tasks0) initialHorizon maxDays) [] with h | ⟨hh, h⟩
    · rw [h] at hp
      exact absurd hp (List.not_mem_nil p)
    · rw [h] at hp
      obtain ⟨t, _ht, _h1, _h2, _h3, hslots⟩ := greedyPass_schedule_mem _ _ _ _ _ p hp
      obtain ⟨_, _, b, hb, hdate, _, _⟩ := hslots s hs
      have hgen := (applyLeavesToBlocks_mem _ _ _ _ _ hb).1
      have := (generateBlocksForUser_mem _ _ _ _ _ hgen).2.1
      omega
  · intro tasks cal2 leaves2 localToday horizon assign dur e he
    obtain ⟨s, hsmem, _hid, hdate⟩ := extractedEntries_mem _ _ _ _ he
    unfold intervalSlots at hsmem
    have h1 := (applyLeavesToSlots_mem _ _ _ hsmem).1
    have h2 := calcContiguousSlots_mem _ _ _ _ h1
    rw [hdate]
    exact mem_intervalDays _ _ _ h2

/-- C3 witness: one task, one Monday row, UTC today = 6; the slot lands
on day 7 = tomorrow. -/
theorem C3_greedy_tomorrow_cp_today_witness :
    (∀ p ∈ (⟨[(1, [⟨1, 1, 7, 9⟩])], 10, 0, 0, true⟩ : GreedyOutcome).schedule,
        ∀ s ∈ p.2, 6 + 1 ≤ s.date) ∧
      (∀ (tasks : List Task) (cal2 : List CalendarRow) (leaves2 : List Leave)
        (localToday horizon : Nat) (assign : List Bool) (dur : List Int),
        ∀ e ∈ extractedEntries (intervalSlots tasks cal2 leaves2 localToday horizon)
          assign dur, localToday ≤ e.2.1) :=
  C3_greedy_tomorrow_cp_today [mkTask 1 1 1] [⟨1, 0, 9, 10⟩] [] 6 7 3650
    ⟨[(1, [⟨1, 1, 7, 9⟩])], 10, 0, 0, true⟩ (by rfl)

/-- C7 (amended): on the greedy path leaves apply per user — a scheduled
slot never falls inside a leave attached to **any** task of the same
user; on the CP interval path leaves are filtered per the slot's **own
task only**, so a slot never falls inside a leave of its own task but may
fall inside a leave of another task of the same user. -/
theorem C7_leave_respect_amended (tasks0 : List Task) (cal : List CalendarRow)
    (leaves : List Leave) (utcToday initialHorizon maxDays : Nat) (o : GreedyOutcome)
    (ho : greedySolveE tasks0 cal leaves utcToday initialHorizon maxDays = Except.ok o) :
    (∀ p ∈ o.schedule, ∀ s ∈ p.2, ∀ t ∈ tasks0, t.user_id = s.user_id →
        ∀ l ∈ leaves, l.task_id = t.id →
          ¬(l.date_from ≤ s.date ∧ s.date ≤ l.date_to)) ∧
      (∀ (tasks : List Task) (cal2 : List CalendarRow) (leaves2 : List Leave)
        (localToday horizon : Nat) (assign : List Bool) (dur : List Int),
        ∀ e ∈ extractedEntries (intervalSlots tasks cal2 leaves2 localToday horizon)
          assign dur, ∀ l ∈ leaves2, l.task_id = e.1 →
          ¬(l.date_from ≤ e.2.1 ∧ e.2.1 ≤ l.date_to)) := by
  constructor
  · intro p hp s hs t ht htuser l hl hlid
    rw [greedySolveE_ok _ _ _ _ _ _ _ ho] at hp
    unfold solveLoop at hp
    rcases solveLoopGo_schedule (sortTasks tasks0) cal leaves (utcToday + 1) maxDays
      5 0 (optimalHorizon (sortTasks tasks0) initialHorizon maxDays) [] with h | ⟨hh, h⟩
    · rw [h] at hp
      exact absurd hp (List.not_mem_nil p)
    · rw [h] at hp
      obtain ⟨t', _ht', _h1, _h2, _h3, hslots⟩ := greedyPass_schedule_mem _ _ _ _ _ p hp
      obtain ⟨_, hsuser, b, hb, hdate, _, _⟩ := hslots s hs
      have hleave := (applyLeavesToBlocks_mem _ _ _ _ _ hb).2
      have hmemid : l.task_id ∈ userTaskIds (sortTasks tasks0) t'.user_id := by
        rw [mem_userTaskIds]
        refine ⟨t, (mem_sortTasks tasks0 t).mpr ht, ?_, hlid.symm⟩
        rw [htuser, hsuser]
      have := hleave l hl hmemid
      rw [hdate]
      exact this
  · intro tasks cal2 leaves2 localToday horizon assign dur e he l hl hlid
    obtain ⟨s, hsmem, hid, hdate⟩ := extractedEntries_mem _ _ _ _ he
    unfold intervalSlots at hsmem
    have h2 := (applyLeavesToSlots_mem _ _ _ hsmem).2
    have := h2 l hl (by rw [← hid, hlid])
    rw [hdate]
    exact this

/-- C7 witness: one task whose leave covers days 7–8; the greedy slot is
pushed to day 14, outside the leave. -/
theorem C7_leave_respect_amended_witness :
    (∀ p ∈ (⟨[(1, [⟨1, 1, 14, 9⟩])], 10, 0, 0, true⟩ : GreedyOutcome).schedule,
        ∀ s ∈ p.2, ∀ t ∈ [mkTask 1 1 1], t.user_id = s.user_id →
        ∀ l ∈ [(⟨1, 7, 8⟩ : Leave)], l.task_id = t.id →
          ¬(l.date_from ≤ s.date ∧ s.date ≤ l.date_to)) ∧
      (∀ (tasks : List Task) (cal2 : List CalendarRow) (leaves2 : List Leave)
        (localToday horizon : Nat) (assign : List Bool) (dur : List Int),
        ∀ e ∈ extractedEntries (intervalSlots tasks cal2 leaves2 localToday horizon)
          assign dur, ∀ l ∈ leaves2, l.task_id = e.1 →
          ¬(l.date_from ≤ e.2.1 ∧ e.2.1 ≤ l.date_to)) :=
  C7_leave_respect_amended [mkTask 1 1 1] [⟨1, 0, 9, 10⟩] [⟨1, 7, 8⟩] 6 7 3650
    ⟨[(1, [⟨1, 1, 14, 9⟩])], 10, 0, 0, true⟩ (by rfl)

/-! ## Counting extracted hours on the CP path -/

theorem length_flatMap_sum (l : List α) (f : α → List β) :
    (l.flatMap f).length = (l.map (fun a => (f a).length)).sum := by
  induction l with
  | nil => simp
  | cons x xs ih => simp [List.flatMap_cons, ih]

theorem foldl_add_getD (dur : List Int) (l : List Nat) :
    l.foldl (fun acc i => acc + dur.getD i 0) 0 =
      (l.map (fun i => dur.getD i 0)).sum := by
  have key : ∀ (l : List Nat) (a : Int),
      l.foldl (fun acc i => acc + dur.getD i 0) a =
        a + (l.map (fun i => dur.getD i 0)).sum := by
    intro l
    induction l with
    | nil => intro a; simp
    | cons x xs ih =>
      intro a
      simp only [List.foldl_cons, List.map_cons, List.sum_cons, ih]
      ring
  rw [key, zero_add]

theorem sum_map_ite_filter (P : α → Bool) (g : α → Nat) (l : List α) :
    (l.map (fun i => if P i then g i else 0)).sum = ((l.filter P).map g).sum := by
  induction l with
  | nil => simp
  | cons x xs ih =>
    by_cases hx : P x
    · simp [List.filter_cons, hx, ih]
    · simp [List.filter_cons, hx, ih]

theorem sum_toNat_of_nonneg (l : List Int) (h : ∀ x ∈ l, 0 ≤ x) :
    (l.map Int.toNat).sum = l.sum.toNat := by
  induction l with
  | nil => simp
  | cons x xs ih =>
    have hx := h x (List.mem_cons_self _ _)
    have hxs : ∀ y ∈ xs, 0 ≤ y := fun y hy => h y (List.mem_cons_of_mem _ hy)
    have hsum : 0 ≤ xs.sum := List.sum_nonneg hxs
    simp only [List.map_cons, List.sum_cons, ih hxs]
    omega

/-- Per-slot entry count. -/
theorem slotEntries_length (slots : List ContiguousSlot) (dur : List Int) (i : Nat) :
    (slotEntries slots dur i).length = (dur.getD i 0).toNat := by
  unfold slotEntries
  rw [List.length_map, List.length_range]

/-- Every entry of a slot carries the slot's task id. -/
theorem slotEntries_task (slots : List ContiguousSlot) (dur : List Int) (i : Nat)
    (e : Int × Nat × Int) (he : e ∈ slotEntries slots dur i) :
    e.1 = (slots.getD i default).task_id := by
  unfold slotEntries at he
  simp only [List.mem_map, List.mem_range] at he
  obtain ⟨h, _, rfl⟩ := he
  rfl

theorem extractedEntries_count_aux (slots : List ContiguousSlot) (assign : List Bool)
    (dur : List Int) (tid : Int) :
    ∀ idxs : List Nat,
      (∀ i ∈ idxs, 0 ≤ dur.getD i 0 ∧
        (assign.getD i false = false → dur.getD i 0 = 0)) →
      ((idxs.flatMap (fun i =>
          if assign.getD i false then slotEntries slots dur i else [])).filter
        (fun e => e.1 = tid)).length =
      (((idxs.filter (fun i => (slots.getD i default).task_id = tid)).map
        (fun i => dur.getD i 0)).sum).toNat := by
  intro idxs
  induction idxs with
  | nil =>
    intro _
    simp
  | cons i rest ih =>
    intro hbound
    have hbr : ∀ j ∈ rest, 0 ≤ dur.getD j 0 ∧
        (assign.getD j false = false → dur.getD j 0 = 0) :=
      fun j hj => hbound j (List.mem_cons_of_mem _ hj)
    obtain ⟨hnn, hz⟩ := hbound i (List.mem_cons_self _ _)
    have hrest := ih hbr
    have hsum_nonneg : 0 ≤ ((rest.filter
        (fun j => (slots.getD j default).task_id = tid)).map
        (fun j => dur.getD j 0)).sum := by
      apply List.sum_nonneg
      intro x hx
      simp only [List.mem_map, List.mem_filter] at hx
      obtain ⟨j, ⟨hj, _⟩, rfl⟩ := hx
      exact (hbr j hj).1
    have hhead : ((if assign.getD i false then slotEntries slots dur i else []).filter
        (fun e => e.1 = tid)).length =
        if (slots.getD i default).task_id = tid then (dur.getD i 0).toNat else 0 := by
      by_cases ha : assign.getD i false = true
      · rw [if_pos ha]
        by_cases hid : (slots.getD i default).task_id = tid
        · rw [if_pos hid, List.filter_eq_self.mpr, slotEntries_length]
          intro e he
          rw [decide_eq_true_eq, slotEntries_task slots dur i e he]
          exact hid
        · rw [if_neg hid, List.filter_eq_nil_iff.mpr, List.length_nil]
          intro e he
          simp only [decide_eq_true_eq]
          rw [slotEntries_task slots dur i e he]
          exact hid
      · rw [Bool.not_eq_true] at ha
        rw [ha, hz ha]
        simp
    rw [List.flatMap_cons, List.filter_append, List.length_append, hhead, hrest,
      List.filter_cons]
    by_cases hid : (slots.getD i default).task_id = tid
    · have hd : decide ((slots.getD i default).task_id = tid) = true := by
        simpa using hid
      rw [if_pos hid, hd, if_pos rfl, List.map_cons, List.sum_cons]
      omega
    · have hd : decide ((slots.getD i default).task_id = tid) = false := by
        simpa using hid
      rw [if_neg hid, hd, if_neg (by simp : ¬(false = true))]
      omega

/-- With the linking constraints in force, the number of hourly entries
extracted for a task id is the (truncated) sum of its duration
variables. -/
theorem extractedEntries_count (slots : List ContiguousSlot) (assign : List Bool)
    (dur : List Int) (tid : Int) (hlink : linkOK slots assign dur = true) :
    ((extractedEntries slots assign dur).filter (fun e => e.1 = tid)).length =
      (taskDurSum slots dur tid).toNat := by
  have hbound : ∀ i ∈ List.range slots.length, 0 ≤ dur.getD i 0 ∧
      (assign.getD i false = false → dur.getD i 0 = 0) := by
    intro i hi
    unfold linkOK at hlink
    rw [List.all_eq_true] at hlink
    have := hlink i hi
    simp only [Bool.and_eq_true, decide_eq_true_eq] at this
    refine ⟨this.1.1, ?_⟩
    intro ha
    have hle := this.2
    rw [ha, if_neg (by simp : ¬(false = true)), mul_zero] at hle
    omega
  unfold extractedEntries taskDurSum
  rw [extractedEntries_count_aux slots assign dur tid _ hbound, foldl_add_getD]

/-- C2 (amended): on the greedy path every scheduled task receives
exactly `ceil(remaining_hours)` slots; the CP interval model, however,
constrains — and, under any feasible assignment, emits —
`int(planned_hours)` hours per slot-owning task: the **truncation** of
the **planned_hours** column, not `ceil(remaining_hours)`. -/
theorem C2_hour_counts (tasks0 : List Task) (cal : List CalendarRow)
    (leaves : List Leave) (utcToday initialHorizon maxDays : Nat) (o : GreedyOutcome)
    (ho : greedySolveE tasks0 cal leaves utcToday initialHorizon maxDays = Except.ok o) :
    (∀ p ∈ o.schedule, ∃ t ∈ tasks0, p.1 = t.id ∧
        p.2.length = (Int.ceil t.remaining_hours).toNat) ∧
      (∀ (tasks : List Task) (slots : List ContiguousSlot) (assign : List Bool)
        (dur : List Int) (t : Task), t ∈ tasks →
        cpFeasible tasks slots assign dur = true →
        slots.any (fun s2 => s2.task_id = t.id) = true →
        (t.id, pyInt t.planned_hours) ∈ coverageConstraints tasks slots ∧
          ((extractedEntries slots assign dur).filter
            (fun e => e.1 = t.id)).length = (pyInt t.planned_hours).toNat) := by
  constructor
  · intro p hp
    rw [greedySolveE_ok _ _ _ _ _ _ _ ho] at hp
    unfold solveLoop at hp
    rcases solveLoopGo_schedule (sortTasks tasks0) cal leaves (utcToday + 1) maxDays
      5 0 (optimalHorizon (sortTasks tasks0) initialHorizon maxDays) [] with h | ⟨hh, h⟩
    · rw [h] at hp
      exact absurd hp (List.not_mem_nil p)
    · rw [h] at hp
      obtain ⟨t, ht, h1, _h2, h3, _⟩ := greedyPass_schedule_mem _ _ _ _ _ p hp
      exact ⟨t, (mem_sortTasks tasks0 t).mp ht, h1, h3⟩
  · intro tasks slots assign dur t htmem hfeas hany
    have hconstr : (t.id, pyInt t.planned_hours) ∈ coverageConstraints tasks slots := by
      unfold coverageConstraints
      rw [List.mem_filterMap]
      refine ⟨t, ?_, ?_⟩
      · unfold sortTasksByPriority
        exact (mem_isort _ _ _).mpr htmem
      · rw [if_pos hany]
    refine ⟨hconstr, ?_⟩
    simp only [cpFeasible, Bool.and_eq_true] at hfeas
    obtain ⟨⟨⟨⟨_hlen1, _hlen2⟩, hlink⟩, hcov⟩, _hnov⟩ := hfeas
    have hsum : taskDurSum slots dur t.id = pyInt t.planned_hours := by
      unfold coverageOK at hcov
      rw [List.all_eq_true] at hcov
      have := hcov _ hconstr
      simpa using this
    rw [extractedEntries_count slots assign dur t.id hlink, hsum]

/-- C2 witness: the one-task instance from the C3 witness, whose single
schedule entry carries `ceil(1) = 1` slot. -/
theorem C2_hour_counts_witness :
    (∀ p ∈ (⟨[(1, [⟨1, 1, 7, 9⟩])], 10, 0, 0, true⟩ : GreedyOutcome).schedule,
        ∃ t ∈ [mkTask 1 1 1], p.1 = t.id ∧
          p.2.length = (Int.ceil t.remaining_hours).toNat) ∧
      (∀ (tasks : List Task) (slots : List ContiguousSlot) (assign : List Bool)
        (dur : List Int) (t : Task), t ∈ tasks →
        cpFeasible tasks slots assign dur = true →
        slots.any (fun s2 => s2.task_id = t.id) = true →
        (t.id, pyInt t.planned_hours) ∈ coverageConstraints tasks slots ∧
          ((extractedEntries slots assign dur).filter
            (fun e => e.1 = t.id)).length = (pyInt t.planned_hours).toNat) :=
  C2_hour_counts [mkTask 1 1 1] [⟨1, 0, 9, 10⟩] [] 6 7 3650
    ⟨[(1, [⟨1, 1, 7, 9⟩])], 10, 0, 0, true⟩ (by rfl)

end TaskScheduler
